import Mathlib

/-!
# go-parse: presence checking of required JSON fields

A shallow embedding of `internal.go` (`skeleton`, `merge`, `check`) of the
`parse` package, and theorems about it.

Representation choices.

* A Go value of type `any` produced by `json.Unmarshal` is a `Val`.
* A Go `map[string]any` is the list of its entries, in the order a `range`
  loop visits them.  Go does not fix that order, so statements about the
  outcome of `check` on a map are made for every `SameMap` reordering of it.
  Reading a key is `mapGet` (first entry with that key), `m[k] = v` is
  `mapSet`, `delete(m, k)` is `mapDelete`.
* A `reflect.Type` is a `GoType`; a struct field carries the result of
  `field.Tag.Get("json")` as `tag`.
* A Go `error` is `Option ParseError`, `none` being `nil`; a panic of a
  type assertion is the `none` of an `Option` result.
-/

namespace GoParse

/-! ## Data model -/

/-- Dynamic values as decoded into `any`: `nil`, `bool`, `float64`, `string`,
`[]any` and `map[string]any`.  The payload of a number is never inspected by
the code modelled here. -/
inductive Val where
  | null
  | bool (b : Bool)
  | num (n : Int)
  | str (s : String)
  | arr (xs : List Val)
  | obj (kvs : List (String × Val))

/-- Entries of a `map[string]any`, in iteration order. -/
abbrev GoMap := List (String × Val)

/-- The four sentinel errors of `parse.go`, with the text that follows them. -/
inductive ParseError where
  | typeConstraint (msg : String)
  | invalidJSON (msg : String)
  | typeMismatch (msg : String)
  | missingField (path : String)
  deriving DecidableEq, Repr

/-- One field of a struct type: its Go name, the value of its `json` tag key
(empty when the field has none) and its type. -/
structure Field (τ : Type) where
  name : String
  tag : String
  type : τ

/-- Static types as seen through `reflect`: only the distinction between
`reflect.Struct` and every other kind matters to `skeleton`.  A type of
another kind than pointer, slice, array, map or struct is `basic`, with the
text of `Kind.String()` (`int`, `string`, `bool`, `interface`, …). -/
inductive GoType where
  | basic (kind : String)
  | ptr (elem : GoType)
  | slice (elem : GoType)
  | array (len : Nat) (elem : GoType)
  | map (key : GoType) (elem : GoType)
  | struct (fields : List (Field GoType))

/-! ## Map primitives -/

/-- Map read `v, ok := m[key]`; `none` is `ok = false`. -/
def mapGet : GoMap → String → Option Val
  | [], _ => none
  | (k, v) :: rest, key => if k = key then some v else mapGet rest key

/-- Map write `m[key] = val`: overwrites the entry when the key exists. -/
def mapSet : GoMap → String → Val → GoMap
  | [], key, val => [(key, val)]
  | (k, v) :: rest, key, val =>
    if k = key then (k, val) :: rest else (k, v) :: mapSet rest key val

/-- Removal of a key, `delete(m, key)`. -/
def mapDelete : GoMap → String → GoMap
  | [], _ => []
  | (k, v) :: rest, key =>
    if k = key then mapDelete rest key else (k, v) :: mapDelete rest key

/-- Key list of a map, in iteration order. -/
def keys (m : GoMap) : List String := m.map Prod.fst

/-! ## `skeleton` -/

/-- Splitting at commas, on characters: `strings.Split(s, ",")`. -/
def splitComma : List Char → List (List Char)
  | [] => [[]]
  | c :: cs =>
    if c = ',' then [] :: splitComma cs
    else
      match splitComma cs with
      | [] => [[c]]
      | p :: ps => (c :: p) :: ps

/-- The call `strings.Split(tag, ",")` of `skeleton`. -/
def tagArgs (tag : String) : List String :=
  (splitComma tag.data).map String.mk

/-- The inner loop of `skeleton`: true when some segment of the tag is
`"optional"`, `"-"` or empty, in which case the field is skipped. -/
def skipField (args : List String) : Bool :=
  args.any (fun arg => arg == "optional" || arg == "-" || arg == "")

/-- The key under which a field is stored, `args[0]`. -/
def tagName (tag : String) : String :=
  (tagArgs tag).headD ""

mutual
/-- Value stored for a field that is not skipped: a nested skeleton when the
kind is `reflect.Struct`, `nil` otherwise. -/
def skeletonValue : GoType → Val
  | .struct fields => .obj (skeletonLoop fields [])
  | _ => .null
termination_by structural t => t
/-- The `outer` loop of `skeleton` over the fields in declaration order,
threading the map `data`. -/
def skeletonLoop : List (Field GoType) → GoMap → GoMap
  | [], data => data
  | ⟨_, tag, type⟩ :: rest, data =>
    if skipField (tagArgs tag) then skeletonLoop rest data
    else skeletonLoop rest (mapSet data (tagName tag) (skeletonValue type))
termination_by structural fields => fields
end

/-- The function `skeleton` applied to a struct type with the given fields. -/
def skeleton (fields : List (Field GoType)) : GoMap :=
  skeletonLoop fields []

/-! ## `merge` -/

mutual
/-- Body of the loop of `merge` for one entry of `skelly`: `value` is the
skeleton value, the second argument the result of `parsed[tag]`.  The result
is what is stored at `result[tag]`; `none` is the panic of the assertion
`value.(map[string]any)`.  When `value` is `nil` it is replaced by a fresh
empty map, and merging the empty map yields the empty map. -/
def mergeValue : Val → Option Val → Option Val
  | .null, some (.obj _) => some (.obj [])
  | .obj sk, some (.obj v) =>
    match merge sk v with
    | some sub => some (.obj sub)
    | none => none
  | _, some (.obj _) => none
  | value, some .null => some value
  | _, some parsedV => some parsedV
  | .obj _, none => some .null
  | value, none => some value
termination_by structural value => value
/-- The function `merge`: overlays `parsed` on `skelly`. -/
def merge : List (String × Val) → GoMap → Option GoMap
  | [], _ => some []
  | (tag, value) :: rest, parsed =>
    match mergeValue value (mapGet parsed tag) with
    | some r =>
      match merge rest parsed with
      | some result => some ((tag, r) :: result)
      | none => none
    | none => none
termination_by structural skelly => skelly
end

/-! ## `check` -/

/-- The path `check` builds for `tag` under `parent`: the reassignment
`tag = strings.Join([]string{parent, tag}, ".")` made when `parent != ""`. -/
def joinTag (parent tag : String) : String :=
  if parent ≠ "" then String.intercalate "." [parent, tag] else tag

mutual
/-- The type switch of `check` on one value, `tag` being the joined path:
an error stops the loop, `none` lets it continue. -/
def checkValue : Val → String → Option ParseError
  | .obj v, tag => check v tag
  | .null, tag => some (.missingField tag)
  | _, _ => none
termination_by structural value => value
/-- The function `check`, `parent` being `""` when no parent is passed. -/
def check : List (String × Val) → String → Option ParseError
  | [], _ => none
  | (tag, value) :: rest, parent =>
    match checkValue value (joinTag parent tag) with
    | some err => some err
    | none => check rest parent
termination_by structural merged => merged
end

/-! ## Predicates on skeletons and documents -/

mutual
/-- A skeleton value is `nil` or a nested skeleton map. -/
def isSkelValue : Val → Bool
  | .null => true
  | .obj kvs => isSkel kvs
  | _ => false
termination_by structural v => v
/-- Shape of the trees built by `skeleton`: every value is `nil` or again
such a map. -/
def isSkel : List (String × Val) → Bool
  | [] => true
  | (_, v) :: rest => isSkelValue v && isSkel rest
termination_by structural m => m
end

mutual
/-- Paths of the `nil` values reachable from one value through nested maps. -/
def nullPathsValue : Val → String → List String
  | .obj v, tag => nullPaths v tag
  | .null, tag => [tag]
  | _, _ => []
termination_by structural value => value
/-- Paths of all `nil` values reachable in a map through nested maps, each
joined as `check` joins it, in iteration order. -/
def nullPaths : List (String × Val) → String → List String
  | [], _ => []
  | (tag, value) :: rest, parent =>
    nullPathsValue value (joinTag parent tag) ++ nullPaths rest parent
termination_by structural merged => merged
end

/-- The same Go map enumerated in another order, at the top level or inside
nested maps. -/
inductive SameMap : GoMap → GoMap → Prop
  | refl (a : GoMap) : SameMap a a
  | cons (x : String × Val) {a b : GoMap} : SameMap a b → SameMap (x :: a) (x :: b)
  | nest (k : String) {a b : GoMap} (rest : GoMap) :
      SameMap a b → SameMap ((k, .obj a) :: rest) ((k, .obj b) :: rest)
  | swap (x y : String × Val) (a : GoMap) : SameMap (x :: y :: a) (y :: x :: a)
  | trans {a b c : GoMap} : SameMap a b → SameMap b c → SameMap a c

/-- Writing `key ↦ val` into the nested document object reached along
`path` (the document is unchanged when the path does not lead through
objects). -/
def setAt : GoMap → List String → String → Val → GoMap
  | d, [], key, val => mapSet d key val
  | d, k :: ks, key, val =>
    match mapGet d k with
    | some (.obj o) => mapSet d k (.obj (setAt o ks key val))
    | _ => d

/-- The key is not a key of any skeleton map reached along `path`. -/
def Unknown : GoMap → List String → String → Prop
  | s, [], key => key ∉ keys s
  | s, k :: ks, key => ∀ sub, (k, Val.obj sub) ∈ s → Unknown sub ks key

mutual
/-- The merged value over a skeleton value and a document value has, where
both are objects, the key list of the skeleton object, recursively. -/
def keysAgreeValue : Val → Option Val → Val → Bool
  | .obj sub, some (.obj o), .obj m => keysAgree sub o m
  | .obj _, some (.obj _), _ => false
  | _, _, _ => true
termination_by structural v => v
/-- The merged map `m` has exactly the keys of the skeleton `s`, and so has
every nested map merged from a skeleton object and a document object. -/
def keysAgree : List (String × Val) → GoMap → GoMap → Bool
  | [], _, [] => true
  | (k, v) :: rest, d, (k', r) :: mrest =>
    decide (k = k') && keysAgreeValue v (mapGet d k) r && keysAgree rest d mrest
  | _, _, _ => false
termination_by structural s => s
end

/-! ## Predicates on record types -/

/-- A field is required when the loop of `skeleton` does not skip it; this is
the meaning of "required" in every statement below. -/
def required (f : Field GoType) : Bool :=
  !skipField (tagArgs f.tag)

/-- External names of the required fields, in declaration order. -/
def requiredNames (fields : List (Field GoType)) : List String :=
  (fields.filter required).map (fun f => tagName f.tag)

/-- The rule of the specification for a required field, in its words: the
name (first segment of the tag) is neither empty nor `-`, and the modifier
flags (the segments after the name) do not include `optional`. -/
def specRequired (tag : String) : Bool :=
  decide (tagName tag ≠ "") && decide (tagName tag ≠ "-") &&
    !((tagArgs tag).tail.contains "optional")

mutual
/-- Well-formed skeleton value: `nil` or a well-formed skeleton map. -/
def wfSkelValue : Val → Bool
  | .null => true
  | .obj kvs => wfSkel kvs
  | _ => false
termination_by structural v => v
/-- Well-formed skeleton map: the keys are non-empty and pairwise distinct
and every value is `nil` or again such a map. -/
def wfSkel : List (String × Val) → Bool
  | [] => true
  | (k, v) :: rest =>
    decide (k ≠ "") && !((keys rest).contains k) && wfSkelValue v && wfSkel rest
termination_by structural m => m
end

mutual
/-- The document value `v` supplied for a required field of type `t` is
non-null and, when the field is a nested record given as an object, holds
non-null values for the required fields of that record, transitively. -/
def completeValue : GoType → Val → Bool
  | _, .null => false
  | .struct fs, .obj o => complete fs o
  | _, _ => true
termination_by structural t => t
/-- The document holds a non-null value for every required field of the
record, transitively through nested records given as objects. -/
def complete : List (Field GoType) → GoMap → Bool
  | [], _ => true
  | ⟨_, tag, t⟩ :: rest, d =>
    (skipField (tagArgs tag) ||
      match mapGet d (tagName tag) with
      | some v => completeValue t v
      | none => false) && complete rest d
termination_by structural fs => fs
end

/-- A chain of external names of required fields, each one after the first
taken in the nested record type of the field before it. -/
inductive TypePath : List (Field GoType) → List String → Prop
  | last {fs : List (Field GoType)} {f : Field GoType} :
      f ∈ fs → required f = true → TypePath fs [tagName f.tag]
  | cons {fs sub : List (Field GoType)} {f : Field GoType} {ks : List String} :
      f ∈ fs → required f = true → f.type = .struct sub → TypePath sub ks →
      TypePath fs (tagName f.tag :: ks)

/-- A chain of keys along a path of a skeleton: each key after the first is a
key of the nested map stored at the key before it. -/
inductive SkelPath : GoMap → List String → Prop
  | last {s : GoMap} {k : String} {w : Val} : (k, w) ∈ s → SkelPath s [k]
  | cons {s sub : GoMap} {k : String} {ks : List String} :
      (k, Val.obj sub) ∈ s → SkelPath sub ks → SkelPath s (k :: ks)

/-- The path string `check` builds when it descends along the keys `ks`
starting under `parent`. -/
def pathFrom (parent : String) (ks : List String) : String :=
  ks.foldl joinTag parent

/-- Paths of the `nil` values that the entry `x` of a skeleton contributes to
the merged tree. -/
def entryPaths (d : GoMap) (parent : String) (x : String × Val) : List String :=
  match mergeValue x.2 (mapGet d x.1) with
  | some r => nullPathsValue r (joinTag parent x.1)
  | none => []

/-- Value-level statement of completeness. -/
def CompleteOk (t : GoType) : Prop :=
  ∀ v, completeValue t v = true →
    ∃ r, mergeValue (skeletonValue t) (some v) = some r ∧ ∀ tag, nullPathsValue r tag = []

/-- Value-level statement: a path reported below `tag` is `tag` itself or
continues along required fields of the nested record type. -/
def PathOk (t : GoType) : Prop :=
  ∀ (x : Option Val) (r : Val) (tag p : String), tag ≠ "" →
    mergeValue (skeletonValue t) x = some r → p ∈ nullPathsValue r tag →
    p = tag ∨ ∃ sub ks, t = .struct sub ∧ TypePath sub ks ∧
      SkelPath (skeleton sub) ks ∧ p = pathFrom tag ks

mutual
/-- Distinct external names below a field type. -/
def distinctType : GoType → Bool
  | .struct fs => distinct fs
  | _ => true
termination_by structural t => t
/-- Within the record, and within every nested record of a required field,
no two required fields share an external name. -/
def distinct : List (Field GoType) → Bool
  | [] => true
  | ⟨_, tag, t⟩ :: rest =>
    (skipField (tagArgs tag) ||
      (!((requiredNames rest).contains (tagName tag)) && distinctType t)) && distinct rest
termination_by structural fs => fs
end

/-- A required leaf field `key`, reached from the record type through the
nested required records named by `path`, each of which the document supplies
as an object. -/
inductive LeafAt : List (Field GoType) → GoMap → List String → String → Prop
  | here {fs : List (Field GoType)} {d : GoMap} {f : Field GoType} :
      f ∈ fs → required f = true → (∀ sub, f.type ≠ .struct sub) →
      LeafAt fs d [] (tagName f.tag)
  | under {fs sub : List (Field GoType)} {d o : GoMap} {g : Field GoType}
      {path : List String} {key : String} :
      g ∈ fs → required g = true → g.type = .struct sub →
      mapGet d (tagName g.tag) = some (.obj o) → LeafAt sub o path key →
      LeafAt fs d (tagName g.tag :: path) key

/-- Removing `key` from the nested document object reached along `path`. -/
def deleteAt : GoMap → List String → String → GoMap
  | d, [], key => mapDelete d key
  | d, k :: ks, key =>
    match mapGet d k with
    | some (.obj o) => mapSet d k (.obj (deleteAt o ks key))
    | _ => d

mutual
/-- A record type without any required non-record field, at any depth. -/
def leaflessType : GoType → Bool
  | .struct fs => leafless fs
  | _ => false
termination_by structural t => t
/-- Every required field of the record is a nested record that is again
leafless. -/
def leafless : List (Field GoType) → Bool
  | [] => true
  | ⟨_, tag, t⟩ :: rest => (skipField (tagArgs tag) || leaflessType t) && leafless rest
termination_by structural fs => fs
end

mutual
/-- What a successful check guarantees about the document value of a required
field: a non-record field is non-null; a nested record given as an object
satisfies `present`; a nested record given as `null` is leafless; nothing is
known below a nested record given as another kind of value. -/
def presentValue : GoType → Val → Bool
  | .struct fs, .obj o => present fs o
  | .struct fs, .null => leafless fs
  | .struct _, _ => true
  | _, .null => false
  | _, _ => true
termination_by structural t => t
/-- Every required field of the record has its key in the document, with a
value as described by `presentValue`. -/
def present : List (Field GoType) → GoMap → Bool
  | [], _ => true
  | ⟨_, tag, t⟩ :: rest, d =>
    (skipField (tagArgs tag) ||
      match mapGet d (tagName tag) with
      | some v => presentValue t v
      | none => false) && present rest d
termination_by structural fs => fs
end

mutual
/-- The specification's presence requirement on the value of a required
field: it is non-null, and for a nested record its required fields are
present in turn (looked up in the empty object when the value is not an
object). -/
def specPresentValue : GoType → Val → Bool
  | _, .null => false
  | .struct fs, .obj o => specPresent fs o
  | .struct fs, _ => specPresent fs []
  | _, _ => true
termination_by structural t => t
/-- The specification's presence requirement: every required field is present
in the document with a non-null value, recursively for nested records. -/
def specPresent : List (Field GoType) → GoMap → Bool
  | [], _ => true
  | ⟨_, tag, t⟩ :: rest, d =>
    (skipField (tagArgs tag) ||
      match mapGet d (tagName tag) with
      | some v => specPresentValue t v
      | none => false) && specPresent rest d
termination_by structural fs => fs
end

/-- Value-level statement: a raw skeleton value without reachable `nil`
belongs to a leafless record type. -/
def LeafOk (t : GoType) : Prop :=
  distinctType t = true → ∀ tag, nullPathsValue (skeletonValue t) tag = [] →
    leaflessType t = true

/-- Value-level statement of soundness: a merged value without reachable
`nil` comes from a document value accepted by `presentValue`. -/
def SoundOk (t : GoType) : Prop :=
  distinctType t = true → ∀ (x : Option Val) (r : Val) (tag : String),
    mergeValue (skeletonValue t) x = some r → nullPathsValue r tag = [] →
    ∃ v, x = some v ∧ presentValue t v = true

/-- A chain of keys leading to a `nil` value of a map through nested maps.
It is stated through membership, so it does not depend on the order of the
entries. -/
inductive NullAt : GoMap → List String → Prop
  | here {m : GoMap} {k : String} : (k, Val.null) ∈ m → NullAt m [k]
  | inside {m sub : GoMap} {k : String} {ks : List String} :
      (k, Val.obj sub) ∈ m → NullAt sub ks → NullAt m (k :: ks)

/-- The dot-joined chain `parent.k1.….kn`, without a leading dot when
`parent` is empty. -/
def dotted (parent : String) (ks : List String) : String :=
  if parent = "" then String.intercalate "." ks else String.intercalate "." (parent :: ks)

/-! ## `formatErrTypeMismatch`

The pattern is
`cannot unmarshal (\w+) into Go struct field (?:[^.\s]+)?\.(.+) of type (.*)$`.
Strings are read as lists of characters.  `FindStringSubmatch` returns the
leftmost match (`findSubmatch` tries every start position in turn), and at
one start position the match preferred by the greedy operators
(`matchHere`): `\w+` and `[^.\s]+` can only succeed on a maximal run, because
the text that follows them starts with a character outside their class, and
`(.+)` followed by ` of type (.*)$` ends at the last occurrence of
` of type `, the rest of the text being free of line breaks. -/

/-- The class `\w`: ASCII letters, digits and the underscore. -/
def isWordChar (c : Char) : Bool := c.isAlphanum || c = '_'

/-- The class `\s`: tab, line feed, form feed, carriage return, space. -/
def isSpaceChar (c : Char) : Bool :=
  c = '\t' || c = '\n' || c = Char.ofNat 12 || c = '\r' || c = ' '

/-- The literal `cannot unmarshal ` of the pattern. -/
def litCannot : List Char := "cannot unmarshal ".data

/-- The literal ` into Go struct field ` of the pattern. -/
def litInto : List Char := " into Go struct field ".data

/-- The literal ` of type ` of the pattern. -/
def litOfType : List Char := " of type ".data

/-- Matching a literal at the start of the text: the rest of the text, or
`none` when the text does not start with the literal. -/
def stripLit : List Char → List Char → Option (List Char)
  | [], s => some s
  | _ :: _, [] => none
  | a :: lit, b :: s => if a = b then stripLit lit s else none

/-- Splitting the text at the last occurrence of `sep`: the text before it
and the text after it. -/
def splitLast (sep : List Char) : List Char → Option (List Char × List Char)
  | [] => none
  | c :: cs =>
    match splitLast sep cs with
    | some (a, b) => some (c :: a, b)
    | none => (stripLit sep (c :: cs)).map (fun b => ([], b))

/-- The match of the pattern that starts at the first character of the text:
the three submatches `(\w+)`, `(.+)` and `(.*)`. -/
def matchHere (s : List Char) : Option (List Char × List Char × List Char) :=
  match stripLit litCannot s with
  | none => none
  | some s1 =>
    if s1.takeWhile isWordChar = [] then none
    else
      match stripLit litInto (s1.dropWhile isWordChar) with
      | none => none
      | some s3 =>
        match s3.dropWhile (fun c => c != '.' && !isSpaceChar c) with
        | [] => none
        | c :: s5 =>
          if c = '.' ∧ s5.contains '\n' = false then
            match splitLast litOfType s5 with
            | some (f, e) => if f = [] then none else some (s1.takeWhile isWordChar, f, e)
            | none => none
          else none

/-- The call `re.FindStringSubmatch(input)`: the submatches of the leftmost
match, `none` when the pattern matches nowhere (`len(matches) != 4`). -/
def findSubmatch : List Char → Option (List Char × List Char × List Char)
  | [] => matchHere []
  | c :: cs =>
    match matchHere (c :: cs) with
    | some m => some m
    | none => findSubmatch cs

/-- The format `cannot parse '%s' into <%s>, expected '%s'.` of `fmt.Sprintf`. -/
def mismatchText (received tag expected : List Char) : List Char :=
  "cannot parse '".data ++ received ++ "' into <".data ++ tag ++ ">, expected '".data
    ++ expected ++ "'.".data

/-- The function `formatErrTypeMismatch`.  `lower` stands for the rune mapping
`unicode.ToLower` of the Go library, which `strings.ToLower` applies to every
character of its argument `matches[2][0:1] + matches[2][1:]`. -/
def formatErrTypeMismatch (lower : Char → Char) (input : String) : String :=
  match findSubmatch input.data with
  | some (received, field, expected) =>
    let tag := (field.take 1 ++ field.drop 1).map lower
    if expected = "map".data then String.mk (mismatchText received tag "object".data)
    else if expected.contains '.' then String.mk (mismatchText received tag "object".data)
    else String.mk (mismatchText received tag expected)
  | none => input

/-- The field name the specification asks for: only the first character is
lower-cased, the remaining characters are unchanged. -/
def lowerFirst (lower : Char → Char) (field : List Char) : List Char :=
  (field.take 1).map lower ++ field.drop 1

/-! ## `JSON` -/

/-- Results of the two calls of `json.Unmarshal` on the input bytes, which
belong to the Go library and are taken as data: the generic decode into
`parsed` (the error text, or the filled map) and the typed decode into
`&output`, given the pointer `output` before the call (`none` is `nil`) and
yielding the pointer after the call and the error text, if any. -/
structure Decodes (α : Type) where
  generic : Except String GoMap
  typed : Option α → Option α × Option String

/-- The call `reflect.TypeOf(create[T]())`: the type of the zero value of `T`.
The zero value of an interface type is the nil interface, for which
`reflect.TypeOf` returns a nil `Type` (`none`), on which `Kind()` panics. -/
def typeOfZero : GoType → Option GoType
  | .basic kind => if kind = "interface" then none else some (.basic kind)
  | t => some t

/-- The result of `kind.String()`. -/
def kindString : GoType → String
  | .basic kind => kind
  | .ptr _ => "ptr"
  | .slice _ => "slice"
  | .array _ _ => "array"
  | .map _ _ => "map"
  | .struct _ => "struct"

/-- The function `JSON[T]`, for the target type `t`, the results `dec` of the
two decodes of `data` and the optional `externals`.  The result is the pair
`(output, err)`, `none` standing for a panic.  `iter` is the order in which
`range` enumerates the merged map inside `check`. -/
def JSON {α : Type} (lower : Char → Char) (t : GoType) (dec : Decodes α)
    (externals : List α) (iter : GoMap → GoMap) : Option (Option α × Option ParseError) :=
  match typeOfZero t with
  | none => none
  | some ty =>
    match ty with
    | .ptr _ => some (none, some (.typeConstraint "generic must be a non-pointer"))
    | .struct fields =>
      match dec.generic with
      | .error msg => some (none, some (.invalidJSON msg))
      | .ok parsed =>
        match dec.typed externals.head? with
        | (output, some msg) =>
          some (output, some (.typeMismatch (formatErrTypeMismatch lower msg)))
        | (output, none) =>
          match merge (skeleton fields) parsed with
          | none => none
          | some merged =>
            match check (iter merged) "" with
            | some err => some (output, some err)
            | none => some (output, none)
    | other =>
      some (none, some (.typeConstraint
        ("generic must be a struct not " ++ "'" ++ kindString other ++ "'")))

/-! ## Basic facts -/

theorem merge_nil (parsed : GoMap) : merge [] parsed = some [] := by
  simp [merge]

theorem joinTag_eq (parent tag : String) :
    joinTag parent tag = if parent = "" then tag else parent ++ "." ++ tag := by
  unfold joinTag
  by_cases h : parent = ""
  · simp [h]
  · simp [h, String.intercalate, String.intercalate.go]

theorem mapGet_mapSet_same (d : GoMap) (k : String) (v : Val) :
    mapGet (mapSet d k v) k = some v := by
  induction d with
  | nil => simp [mapSet, mapGet]
  | cons x rest ih =>
    obtain ⟨a, b⟩ := x
    by_cases h : a = k
    · simp [mapSet, mapGet, h]
    · simp [mapSet, mapGet, h, ih]

theorem mapGet_mapSet_other (d : GoMap) (k k' : String) (v : Val) (h : k ≠ k') :
    mapGet (mapSet d k v) k' = mapGet d k' := by
  induction d with
  | nil => simp [mapSet, mapGet, h]
  | cons x rest ih =>
    obtain ⟨a, b⟩ := x
    by_cases h1 : a = k
    · subst h1; simp [mapSet, mapGet, h]
    · by_cases h2 : a = k'
      · subst h2; simp [mapSet, mapGet, h1]
      · simp [mapSet, mapGet, h1, h2, ih]

theorem mapGet_mapDelete_same (d : GoMap) (k : String) :
    mapGet (mapDelete d k) k = none := by
  induction d with
  | nil => simp [mapDelete, mapGet]
  | cons x rest ih =>
    obtain ⟨a, b⟩ := x
    by_cases h : a = k
    · simp [mapDelete, h, ih]
    · simp [mapDelete, mapGet, h, ih]

theorem mapGet_mapDelete_other (d : GoMap) (k k' : String) (h : k ≠ k') :
    mapGet (mapDelete d k) k' = mapGet d k' := by
  induction d with
  | nil => simp [mapDelete, mapGet]
  | cons x rest ih =>
    obtain ⟨a, b⟩ := x
    by_cases h1 : a = k
    · subst h1; simp [mapDelete, mapGet, h, ih]
    · by_cases h2 : a = k'
      · subst h2; simp [mapDelete, mapGet, h1]
      · simp [mapDelete, mapGet, h1, h2, ih]

/-- The result of `merge` is determined entry by entry. -/
theorem merge_congr_entries (s : GoMap) (d d' : GoMap)
    (h : ∀ t w, (t, w) ∈ s → mergeValue w (mapGet d t) = mergeValue w (mapGet d' t)) :
    merge s d = merge s d' := by
  induction s with
  | nil => simp [merge]
  | cons x rest ih =>
    obtain ⟨t, w⟩ := x
    have h1 := h t w (by simp)
    have h2 := ih (fun t' w' hm => h t' w' (by simp [hm]))
    simp [merge, h1, h2]

/-! ## Induction over values and maps -/

mutual
theorem val_rec_value {P : Val → Prop} {Q : GoMap → Prop}
    (hleaf : ∀ v, (∀ m, v ≠ .obj m) → P v)
    (hobj : ∀ m, Q m → P (.obj m)) (hnil : Q [])
    (hcons : ∀ k v rest, P v → Q rest → Q ((k, v) :: rest)) : ∀ v, P v
  | .obj m => hobj m (val_rec_map hleaf hobj hnil hcons m)
  | .null => hleaf _ (by intro m h; cases h)
  | .bool _ => hleaf _ (by intro m h; cases h)
  | .num _ => hleaf _ (by intro m h; cases h)
  | .str _ => hleaf _ (by intro m h; cases h)
  | .arr _ => hleaf _ (by intro m h; cases h)
termination_by structural v => v
theorem val_rec_map {P : Val → Prop} {Q : GoMap → Prop}
    (hleaf : ∀ v, (∀ m, v ≠ .obj m) → P v)
    (hobj : ∀ m, Q m → P (.obj m)) (hnil : Q [])
    (hcons : ∀ k v rest, P v → Q rest → Q ((k, v) :: rest)) : ∀ m : List (String × Val), Q m
  | [] => hnil
  | (k, v) :: rest =>
    hcons k v rest (val_rec_value hleaf hobj hnil hcons v) (val_rec_map hleaf hobj hnil hcons rest)
termination_by structural m => m
end

/-! ## Dependence of `merge` on the document -/

theorem mergeValue_obj_congr (w : Val) (o o' : GoMap)
    (h : ∀ sub, w = .obj sub → merge sub o = merge sub o') :
    mergeValue w (some (.obj o)) = mergeValue w (some (.obj o')) := by
  cases w with
  | obj sub => simp [mergeValue, h sub rfl]
  | _ => simp [mergeValue]

theorem merge_setAt_unknown (path : List String) :
    ∀ (s d : GoMap) (k : String) (v : Val), Unknown s path k →
      merge s (setAt d path k v) = merge s d := by
  induction path with
  | nil =>
    intro s d k v h
    apply merge_congr_entries
    intro t w hm
    have hne : k ≠ t := by
      intro e
      apply h
      subst e
      exact List.mem_map.mpr ⟨(k, w), hm, rfl⟩
    simp [setAt, mapGet_mapSet_other d k t v hne]
  | cons k0 ks ih =>
    intro s d k v h
    unfold setAt
    split
    · rename_i o ho
      apply merge_congr_entries
      intro t w hm
      by_cases e : k0 = t
      · subst e
        rw [mapGet_mapSet_same, ho]
        apply mergeValue_obj_congr
        intro sub hw
        subst hw
        exact ih sub o k v (h sub hm)
      · rw [mapGet_mapSet_other _ _ _ _ e]
    · rfl

/-! ## `check` reports the first reachable `nil` -/

theorem check_eq_head_aux :
    (∀ v : Val, ∀ tag, checkValue v tag
        = (nullPathsValue v tag).head?.map ParseError.missingField) ∧
    (∀ m : GoMap, ∀ parent, check m parent
        = (nullPaths m parent).head?.map ParseError.missingField) := by
  have hleaf : ∀ v : Val, (∀ m, v ≠ .obj m) → ∀ tag, checkValue v tag
      = (nullPathsValue v tag).head?.map ParseError.missingField := by
    intro v hv tag
    cases v with
    | obj m => exact absurd rfl (hv m)
    | _ => simp [checkValue, nullPathsValue]
  have hobj : ∀ m : GoMap, (∀ parent, check m parent
        = (nullPaths m parent).head?.map ParseError.missingField) →
      ∀ tag, checkValue (.obj m) tag
        = (nullPathsValue (.obj m) tag).head?.map ParseError.missingField := by
    intro m ih tag
    simp [checkValue, nullPathsValue, ih]
  have hnil : ∀ parent, check [] parent
      = (nullPaths [] parent).head?.map ParseError.missingField := by
    intro parent
    simp [check, nullPaths]
  have hcons : ∀ (k : String) (v : Val) (rest : GoMap),
      (∀ tag, checkValue v tag
        = (nullPathsValue v tag).head?.map ParseError.missingField) →
      (∀ parent, check rest parent
        = (nullPaths rest parent).head?.map ParseError.missingField) →
      ∀ parent, check ((k, v) :: rest) parent
        = (nullPaths ((k, v) :: rest) parent).head?.map ParseError.missingField := by
    intro k v rest ihv ihr parent
    simp only [check, nullPaths, ihv, ihr]
    cases h : nullPathsValue v (joinTag parent k) with
    | nil => simp
    | cons a l => simp
  exact ⟨val_rec_value hleaf hobj hnil hcons, val_rec_map hleaf hobj hnil hcons⟩

/-- The function `check` returns the error of the first path of `nullPaths`,
and `nil` when there is none. -/
theorem check_eq_head (m : GoMap) (parent : String) :
    check m parent = (nullPaths m parent).head?.map ParseError.missingField :=
  check_eq_head_aux.2 m parent

theorem check_eq_none_iff (m : GoMap) (parent : String) :
    check m parent = none ↔ nullPaths m parent = [] := by
  rw [check_eq_head]
  cases nullPaths m parent <;> simp

theorem check_mem_nullPaths (m : GoMap) (parent : String) (e : ParseError)
    (h : check m parent = some e) :
    ∃ p, p ∈ nullPaths m parent ∧ e = .missingField p := by
  rw [check_eq_head] at h
  cases hp : nullPaths m parent with
  | nil => simp [hp] at h
  | cons a l =>
    simp [hp] at h
    exact ⟨a, by simp, h.symm⟩

/-- Reordering a map permutes the reachable `nil` paths. -/
theorem nullPaths_perm {a b : GoMap} (h : SameMap a b) :
    ∀ parent, (nullPaths a parent).Perm (nullPaths b parent) := by
  induction h with
  | refl a => intro parent; exact List.Perm.refl _
  | cons x _ ih =>
    intro parent
    obtain ⟨k, v⟩ := x
    simp only [nullPaths]
    exact List.Perm.append_left _ (ih parent)
  | nest k rest _ ih =>
    intro parent
    simp only [nullPaths, nullPathsValue]
    exact List.Perm.append_right _ (ih _)
  | swap x y a =>
    intro parent
    obtain ⟨k, v⟩ := x
    obtain ⟨k', v'⟩ := y
    simp only [nullPaths, ← List.append_assoc]
    exact List.Perm.append_right _ List.perm_append_comm
  | trans _ _ ih1 ih2 => intro parent; exact (ih1 parent).trans (ih2 parent)

/-- A map without reachable `nil` passes `check` in every iteration order. -/
theorem check_none_of_nullPaths_nil {m m' : GoMap} (parent : String)
    (hs : SameMap m m') (h : nullPaths m parent = []) : check m' parent = none := by
  rw [check_eq_none_iff]
  have := nullPaths_perm hs parent
  rw [h] at this
  exact List.nil_perm.mp this

/-- A map with a single reachable `nil` makes `check` report its path in
every iteration order. -/
theorem check_of_nullPaths_single {m m' : GoMap} (parent p : String)
    (hs : SameMap m m') (h : nullPaths m parent = [p]) :
    check m' parent = some (.missingField p) := by
  have := nullPaths_perm hs parent
  rw [h] at this
  have h2 := List.singleton_perm.mp this
  rw [check_eq_head, ← h2]
  rfl

/-- Whatever `check` reports in some iteration order is a reachable `nil`
path of the map. -/
theorem check_some_mem {m m' : GoMap} (parent : String) (e : ParseError)
    (hs : SameMap m m') (h : check m' parent = some e) :
    ∃ p, p ∈ nullPaths m parent ∧ e = .missingField p := by
  obtain ⟨p, hp, he⟩ := check_mem_nullPaths m' parent e h
  exact ⟨p, (nullPaths_perm hs parent).mem_iff.mpr hp, he⟩

/-! ## `merge` on skeletons: totality and key sets (C8) -/

theorem merge_cons_eq (t : String) (w : Val) (rest d : GoMap) :
    merge ((t, w) :: rest) d
      = (mergeValue w (mapGet d t)).bind
          (fun r => (merge rest d).map (fun result => (t, r) :: result)) := by
  simp only [merge]
  cases mergeValue w (mapGet d t) with
  | none => rfl
  | some r => cases merge rest d <;> rfl

theorem keysAgree_keys : ∀ (s d m : GoMap), keysAgree s d m = true → keys m = keys s := by
  intro s
  induction s with
  | nil =>
    intro d m h
    cases m with
    | nil => rfl
    | cons x xs => simp [keysAgree] at h
  | cons x rest ih =>
    intro d m h
    obtain ⟨k, v⟩ := x
    cases m with
    | nil => simp [keysAgree] at h
    | cons y mrest =>
      obtain ⟨k', r⟩ := y
      simp [keysAgree] at h
      simp [keys, h.1.1]
      exact ih d mrest h.2

theorem merge_skel_aux :
    (∀ v : Val, isSkelValue v = true → ∀ x : Option Val,
        ∃ r, mergeValue v x = some r ∧ keysAgreeValue v x r = true) ∧
    (∀ s : GoMap, isSkel s = true → ∀ d : GoMap,
        ∃ m, merge s d = some m ∧ keysAgree s d m = true) := by
  have hleaf : ∀ v : Val, (∀ m, v ≠ .obj m) → isSkelValue v = true → ∀ x : Option Val,
      ∃ r, mergeValue v x = some r ∧ keysAgreeValue v x r = true := by
    intro v hv hs x
    cases v with
    | obj m => exact absurd rfl (hv m)
    | null =>
      cases x with
      | none => exact ⟨_, rfl, rfl⟩
      | some y => cases y <;> exact ⟨_, rfl, rfl⟩
    | _ => simp [isSkelValue] at hs
  have hobj : ∀ s : GoMap, (isSkel s = true → ∀ d : GoMap,
        ∃ m, merge s d = some m ∧ keysAgree s d m = true) →
      isSkelValue (.obj s) = true → ∀ x : Option Val,
        ∃ r, mergeValue (.obj s) x = some r ∧ keysAgreeValue (.obj s) x r = true := by
    intro s ih hs x
    simp only [isSkelValue] at hs
    cases x with
    | none => exact ⟨_, rfl, rfl⟩
    | some y =>
      cases y with
      | obj o =>
        obtain ⟨m, hm, hk⟩ := ih hs o
        exact ⟨.obj m, by simp [mergeValue, hm], by simp [keysAgreeValue, hk]⟩
      | _ => exact ⟨_, rfl, rfl⟩
  have hnil : isSkel [] = true → ∀ d : GoMap,
      ∃ m, merge [] d = some m ∧ keysAgree [] d m = true := by
    intro _ d
    exact ⟨[], by simp [merge], by simp [keysAgree]⟩
  have hcons : ∀ (k : String) (v : Val) (rest : GoMap),
      (isSkelValue v = true → ∀ x : Option Val,
        ∃ r, mergeValue v x = some r ∧ keysAgreeValue v x r = true) →
      (isSkel rest = true → ∀ d : GoMap,
        ∃ m, merge rest d = some m ∧ keysAgree rest d m = true) →
      isSkel ((k, v) :: rest) = true → ∀ d : GoMap,
        ∃ m, merge ((k, v) :: rest) d = some m ∧ keysAgree ((k, v) :: rest) d m = true := by
    intro k v rest ihv ihr hs d
    simp only [isSkel, Bool.and_eq_true] at hs
    obtain ⟨r, hr, hkr⟩ := ihv hs.1 (mapGet d k)
    obtain ⟨m, hm, hkm⟩ := ihr hs.2 d
    exact ⟨(k, r) :: m, by simp [merge_cons_eq, hr, hm], by simp [keysAgree, hkr, hkm]⟩
  exact ⟨val_rec_value hleaf hobj hnil hcons, val_rec_map hleaf hobj hnil hcons⟩

/-- On a skeleton `merge` never panics. -/
theorem merge_isSome (s d : GoMap) (hs : isSkel s = true) : ∃ m, merge s d = some m := by
  obtain ⟨m, hm, _⟩ := merge_skel_aux.2 s hs d
  exact ⟨m, hm⟩

/-- C8: for every skeleton `s` and document `d`, `merge s d` returns a map
whose key list is exactly the key list of `s`, and wherever `s` holds a nested
object and `d` holds an object the merged value is an object with exactly the
keys of the nested skeleton, recursively. -/
theorem merge_keys_eq_skeleton_keys (s d : GoMap) (hs : isSkel s = true) :
    ∃ m, merge s d = some m ∧ keys m = keys s ∧ keysAgree s d m = true := by
  obtain ⟨m, hm, hk⟩ := merge_skel_aux.2 s hs d
  exact ⟨m, hm, keysAgree_keys s d m hk, hk⟩

theorem merge_keys_eq_skeleton_keys_witness :
    isSkel [("name", .null), ("address", .obj [("zip", .null)])] = true ∧
    ∃ m, merge [("name", .null), ("address", .obj [("zip", .null)])]
          [("address", .obj [("zip", .str "1"), ("city", .str "x")]), ("extra", .num 1)]
          = some m ∧
      keys m = keys [("name", .null), ("address", .obj [("zip", .null)])] ∧
      keysAgree [("name", .null), ("address", .obj [("zip", .null)])]
          [("address", .obj [("zip", .str "1"), ("city", .str "x")]), ("extra", .num 1)] m
          = true :=
  ⟨by decide, merge_keys_eq_skeleton_keys _ _ (by decide)⟩

/-! ## Unknown keys (C7) -/

/-- C7: a key that the skeleton does not know, written into the document at
the top level (`path = []`, where `setAt d [] k v` is `d` with `k` mapped to
`v` and `Unknown s [] k` says that `k` is not a key of `s`) or into a nested
object merged against a nested skeleton, leaves the result of `merge`
unchanged, and hence the outcome of `check` on it. -/
theorem merge_ignores_unknown_keys (s d : GoMap) (path : List String) (k : String)
    (v : Val) (h : Unknown s path k) :
    merge s (setAt d path k v) = merge s d ∧
    ∀ parent, (merge s (setAt d path k v)).map (fun m => check m parent)
      = (merge s d).map (fun m => check m parent) := by
  have e := merge_setAt_unknown path s d k v h
  exact ⟨e, fun parent => by rw [e]⟩

theorem merge_ignores_unknown_keys_witness :
    Unknown [("name", .null), ("address", .obj [("zip", .null)])] ["address"] "extra" ∧
    (merge [("name", .null), ("address", .obj [("zip", .null)])]
        (setAt [("name", .str "a"), ("address", .obj [("zip", .str "1")])]
          ["address"] "extra" (.str "b"))
      = merge [("name", .null), ("address", .obj [("zip", .null)])]
        [("name", .str "a"), ("address", .obj [("zip", .str "1")])] ∧
    ∀ parent, (merge [("name", .null), ("address", .obj [("zip", .null)])]
        (setAt [("name", .str "a"), ("address", .obj [("zip", .str "1")])]
          ["address"] "extra" (.str "b"))).map (fun m => check m parent)
      = (merge [("name", .null), ("address", .obj [("zip", .null)])]
        [("name", .str "a"), ("address", .obj [("zip", .str "1")])]).map
          (fun m => check m parent)) := by
  have hu : Unknown [("name", .null), ("address", .obj [("zip", .null)])]
      ["address"] "extra" := by
    intro sub hsub
    simp at hsub
    subst hsub
    simp [Unknown, keys]
  exact ⟨hu, merge_ignores_unknown_keys _ _ _ _ _ hu⟩

/-! ## Explicit null and absence (C5) -/

theorem merge_null_eq_absent (s d : GoMap) (k : String)
    (h : ∀ sub, (k, Val.obj sub) ∉ s) :
    merge s (mapSet d k .null) = merge s (mapDelete d k) := by
  apply merge_congr_entries
  intro t w hm
  by_cases e : k = t
  · subst e
    rw [mapGet_mapSet_same, mapGet_mapDelete_same]
    cases w with
    | obj sub => exact absurd hm (h sub)
    | _ => rfl
  · rw [mapGet_mapSet_other _ _ _ _ e, mapGet_mapDelete_other _ _ _ e]

/-- C5 as stated fails: at a nested-record slot an explicit `null` keeps the
nested skeleton (and `check` reports an inner path), while absence of the key
stores a single `nil` (and `check` reports the key itself). -/
theorem explicit_null_not_absence :
    merge (skeleton [⟨"Name", "name", .basic "string"⟩,
        ⟨"Address", "address", .struct [⟨"Zip", "zip", .basic "string"⟩]⟩])
      (mapSet [("name", .str "a")] "address" .null)
      = some [("name", .str "a"), ("address", .obj [("zip", .null)])] ∧
    merge (skeleton [⟨"Name", "name", .basic "string"⟩,
        ⟨"Address", "address", .struct [⟨"Zip", "zip", .basic "string"⟩]⟩])
      (mapDelete [("name", .str "a")] "address")
      = some [("name", .str "a"), ("address", .null)] ∧
    check [("name", .str "a"), ("address", .obj [("zip", .null)])] ""
      = some (.missingField "address.zip") ∧
    check [("name", .str "a"), ("address", .null)] ""
      = some (.missingField "address") ∧
    ¬ (merge (skeleton [⟨"Name", "name", .basic "string"⟩,
        ⟨"Address", "address", .struct [⟨"Zip", "zip", .basic "string"⟩]⟩])
      (mapSet [("name", .str "a")] "address" .null)
      = merge (skeleton [⟨"Name", "name", .basic "string"⟩,
        ⟨"Address", "address", .struct [⟨"Zip", "zip", .basic "string"⟩]⟩])
      (mapDelete [("name", .str "a")] "address")) := by
  refine ⟨rfl, rfl, by decide, by decide, ?_⟩
  intro h
  have h1 : merge (skeleton [⟨"Name", "name", .basic "string"⟩,
        ⟨"Address", "address", .struct [⟨"Zip", "zip", .basic "string"⟩]⟩])
      (mapSet [("name", .str "a")] "address" .null)
      = some [("name", .str "a"), ("address", .obj [("zip", .null)])] := rfl
  have h2 : merge (skeleton [⟨"Name", "name", .basic "string"⟩,
        ⟨"Address", "address", .struct [⟨"Zip", "zip", .basic "string"⟩]⟩])
      (mapDelete [("name", .str "a")] "address")
      = some [("name", .str "a"), ("address", .null)] := rfl
  rw [h1, h2] at h
  simp at h

/-- C5, amended: at every key where the skeleton holds no nested object, a
document with an explicit `null` at the key and the document without the key
give the same merged tree, hence the same outcome of `check`. -/
theorem explicit_null_same_as_absence_at_leaf (s d : GoMap) (k : String)
    (h : ∀ sub, (k, Val.obj sub) ∉ s) :
    merge s (mapSet d k .null) = merge s (mapDelete d k) ∧
    ∀ parent, (merge s (mapSet d k .null)).map (fun m => check m parent)
      = (merge s (mapDelete d k)).map (fun m => check m parent) := by
  have e := merge_null_eq_absent s d k h
  exact ⟨e, fun parent => by rw [e]⟩

theorem explicit_null_same_as_absence_at_leaf_witness :
    (∀ sub, ("name", Val.obj sub) ∉ [("name", Val.null), ("age", Val.null)]) ∧
    (merge [("name", .null), ("age", .null)]
        (mapSet [("name", .str "a"), ("age", .num 3)] "name" .null)
      = merge [("name", .null), ("age", .null)]
        (mapDelete [("name", .str "a"), ("age", .num 3)] "name") ∧
    ∀ parent, (merge [("name", .null), ("age", .null)]
        (mapSet [("name", .str "a"), ("age", .num 3)] "name" .null)).map
          (fun m => check m parent)
      = (merge [("name", .null), ("age", .null)]
        (mapDelete [("name", .str "a"), ("age", .num 3)] "name")).map
          (fun m => check m parent)) :=
  ⟨by simp, explicit_null_same_as_absence_at_leaf _ _ _ (by simp)⟩

/-! ## Induction over types -/

mutual
theorem type_rec_type {P : GoType → Prop} {Q : List (Field GoType) → Prop}
    (hleaf : ∀ t, (∀ fs, t ≠ .struct fs) → P t)
    (hstruct : ∀ fs, Q fs → P (.struct fs)) (hnil : Q [])
    (hcons : ∀ n tag t rest, P t → Q rest → Q (⟨n, tag, t⟩ :: rest)) : ∀ t, P t
  | .struct fs => hstruct fs (type_rec_fields hleaf hstruct hnil hcons fs)
  | .basic _ => hleaf _ (by intro m h; cases h)
  | .ptr _ => hleaf _ (by intro m h; cases h)
  | .slice _ => hleaf _ (by intro m h; cases h)
  | .array _ _ => hleaf _ (by intro m h; cases h)
  | .map _ _ => hleaf _ (by intro m h; cases h)
termination_by structural t => t
theorem type_rec_fields {P : GoType → Prop} {Q : List (Field GoType) → Prop}
    (hleaf : ∀ t, (∀ fs, t ≠ .struct fs) → P t)
    (hstruct : ∀ fs, Q fs → P (.struct fs)) (hnil : Q [])
    (hcons : ∀ n tag t rest, P t → Q rest → Q (⟨n, tag, t⟩ :: rest)) :
    ∀ fs : List (Field GoType), Q fs
  | [] => hnil
  | ⟨n, tag, t⟩ :: rest =>
    hcons n tag t rest (type_rec_type hleaf hstruct hnil hcons t)
      (type_rec_fields hleaf hstruct hnil hcons rest)
termination_by structural fs => fs
end

/-! ## The skeleton of a record type (C9, C10) -/

theorem skeletonLoop_cons (f : Field GoType) (rest : List (Field GoType)) (data : GoMap) :
    skeletonLoop (f :: rest) data
      = if required f = true
        then skeletonLoop rest (mapSet data (tagName f.tag) (skeletonValue f.type))
        else skeletonLoop rest data := by
  obtain ⟨n, tag, t⟩ := f
  simp only [skeletonLoop, required]
  cases skipField (tagArgs tag) <;> simp

theorem skeletonLoop_append (pre post : List (Field GoType)) (data : GoMap) :
    skeletonLoop (pre ++ post) data = skeletonLoop post (skeletonLoop pre data) := by
  induction pre generalizing data with
  | nil => simp [skeletonLoop]
  | cons f rest ih =>
    simp only [List.cons_append, skeletonLoop_cons]
    split <;> exact ih _

theorem skeletonValue_eq (t : GoType) :
    skeletonValue t = match t with
      | .struct sub => .obj (skeleton sub)
      | _ => .null := by
  cases t <;> simp [skeletonValue, skeleton]

theorem mem_keys_mapSet (d : GoMap) (k k' : String) (v : Val) :
    k' ∈ keys (mapSet d k v) ↔ k' = k ∨ k' ∈ keys d := by
  induction d with
  | nil => simp [mapSet, keys]
  | cons x rest ih =>
    obtain ⟨a, b⟩ := x
    by_cases h : a = k
    · subst h
      simp [mapSet, keys]
    · simp only [mapSet, h, if_false]
      simp only [keys, List.map_cons, List.mem_cons] at ih ⊢
      rw [ih]
      tauto

theorem mem_mapSet (d : GoMap) (k : String) (v : Val) (x : String × Val)
    (h : x ∈ mapSet d k v) : x = (k, v) ∨ x ∈ d := by
  induction d with
  | nil => simpa [mapSet] using h
  | cons y rest ih =>
    obtain ⟨a, b⟩ := y
    by_cases e : a = k
    · subst e
      simp [mapSet] at h
      rcases h with h | h
      · exact Or.inl h
      · exact Or.inr (by simp [h])
    · simp [mapSet, e] at h
      rcases h with h | h
      · exact Or.inr (by simp [h])
      · rcases ih h with h' | h'
        · exact Or.inl h'
        · exact Or.inr (by simp [h'])

theorem mem_requiredNames (fs : List (Field GoType)) (k : String) :
    k ∈ requiredNames fs ↔ ∃ f, f ∈ fs ∧ required f = true ∧ tagName f.tag = k := by
  simp [requiredNames, List.mem_map, List.mem_filter, and_assoc]

theorem mem_keys_skeletonLoop (fs : List (Field GoType)) :
    ∀ (data : GoMap) (k : String),
      k ∈ keys (skeletonLoop fs data) ↔ k ∈ keys data ∨ k ∈ requiredNames fs := by
  induction fs with
  | nil => intro data k; simp [skeletonLoop, requiredNames]
  | cons f rest ih =>
    intro data k
    rw [skeletonLoop_cons]
    by_cases hr : required f = true
    · rw [if_pos hr]
      rw [ih, mem_keys_mapSet]
      simp only [requiredNames, List.filter_cons, hr, if_true, List.map_cons, List.mem_cons]
      tauto
    · rw [if_neg hr]
      rw [ih]
      simp [requiredNames, List.filter_cons, hr]

theorem mem_skeletonLoop (fs : List (Field GoType)) :
    ∀ (data : GoMap) (x : String × Val), x ∈ skeletonLoop fs data →
      x ∈ data ∨ ∃ f, f ∈ fs ∧ required f = true ∧ x = (tagName f.tag, skeletonValue f.type) := by
  induction fs with
  | nil => intro data x h; exact Or.inl (by simpa [skeletonLoop] using h)
  | cons f rest ih =>
    intro data x h
    rw [skeletonLoop_cons] at h
    by_cases hr : required f = true
    · rw [if_pos hr] at h
      rcases ih _ x h with h1 | ⟨g, hg, hgr, hx⟩
      · rcases mem_mapSet _ _ _ _ h1 with h2 | h2
        · exact Or.inr ⟨f, by simp, hr, h2⟩
        · exact Or.inl h2
      · exact Or.inr ⟨g, by simp [hg], hgr, hx⟩
    · rw [if_neg hr] at h
      rcases ih _ x h with h1 | ⟨g, hg, hgr, hx⟩
      · exact Or.inl h1
      · exact Or.inr ⟨g, by simp [hg], hgr, hx⟩

theorem mapGet_skeletonLoop_of_not_mem (fs : List (Field GoType)) :
    ∀ (data : GoMap) (k : String), k ∉ requiredNames fs →
      mapGet (skeletonLoop fs data) k = mapGet data k := by
  induction fs with
  | nil => intro data k _; simp [skeletonLoop]
  | cons f rest ih =>
    intro data k hk
    rw [skeletonLoop_cons]
    by_cases hr : required f = true
    · rw [if_pos hr]
      simp only [requiredNames, List.filter_cons, hr, if_true, List.map_cons,
        List.mem_cons, not_or] at hk
      rw [ih _ _ hk.2, mapGet_mapSet_other _ _ _ _ (fun e => hk.1 e.symm)]
    · rw [if_neg hr]
      simp only [requiredNames, List.filter_cons, hr] at hk
      exact ih _ _ hk

/-- The value stored for a name is the one of the last required field
declared with that name. -/
theorem mapGet_skeletonLoop_last (pre post : List (Field GoType)) (f : Field GoType)
    (data : GoMap) (hr : required f = true) (hlast : tagName f.tag ∉ requiredNames post) :
    mapGet (skeletonLoop (pre ++ f :: post) data) (tagName f.tag)
      = some (skeletonValue f.type) := by
  rw [skeletonLoop_append, skeletonLoop_cons]
  rw [if_pos hr]
  rw [mapGet_skeletonLoop_of_not_mem _ _ _ hlast, mapGet_mapSet_same]

theorem skipField_eq_false_iff (args : List String) :
    skipField args = false ↔ ∀ arg ∈ args, arg ≠ "optional" ∧ arg ≠ "-" ∧ arg ≠ "" := by
  simp [skipField, List.any_eq_false, not_or, and_assoc]

/-- C9 as stated fails: a field whose tag name is `optional`, and a field
whose tag ends in a comma, are required by the specification's rule and are
nevertheless left out of the skeleton. -/
theorem skeleton_keys_differ_from_spec_required :
    (specRequired "optional" = true ∧ tagName "optional" = "optional" ∧
      "optional" ∉ keys (skeleton [⟨"Optional", "optional", .basic "bool"⟩])) ∧
    (specRequired "name," = true ∧ tagName "name," = "name" ∧
      "name" ∉ keys (skeleton [⟨"Name", "name,", .basic "string"⟩])) := by
  decide

/-- C9, amended: the key set of `skeleton(type)` is exactly the set of names
(first tag segments) of the declared fields none of whose comma-separated tag
segments, name or modifier, is `optional`, `-` or empty; every other field is
omitted. -/
theorem skeleton_keys_iff (fs : List (Field GoType)) (k : String) :
    k ∈ keys (skeleton fs) ↔
      ∃ f, f ∈ fs ∧ (∀ arg ∈ tagArgs f.tag, arg ≠ "optional" ∧ arg ≠ "-" ∧ arg ≠ "") ∧
        tagName f.tag = k := by
  unfold skeleton
  rw [mem_keys_skeletonLoop, mem_requiredNames]
  simp only [keys, List.map_nil, List.not_mem_nil, false_or]
  constructor
  · rintro ⟨f, hf, hr, hk⟩
    refine ⟨f, hf, ?_, hk⟩
    rw [← skipField_eq_false_iff]
    simpa [required] using hr
  · rintro ⟨f, hf, hr, hk⟩
    refine ⟨f, hf, ?_, hk⟩
    rw [← skipField_eq_false_iff] at hr
    simp [required, hr]

/-- C10 as stated fails: when two required fields carry the same external
name, the skeleton holds the value of the later one, here `nil` although the
first field of that name is a struct. -/
theorem skeleton_value_of_shadowed_field :
    required (⟨"A", "x", .struct [⟨"Zip", "zip", .basic "string"⟩]⟩ : Field GoType) = true ∧
    tagName "x" = "x" ∧
    mapGet (skeleton [⟨"A", "x", .struct [⟨"Zip", "zip", .basic "string"⟩]⟩,
        ⟨"B", "x", .basic "string"⟩]) "x" = some .null ∧
    mapGet (skeleton [⟨"A", "x", .struct [⟨"Zip", "zip", .basic "string"⟩]⟩,
        ⟨"B", "x", .basic "string"⟩]) "x"
      ≠ some (.obj (skeleton [⟨"Zip", "zip", .basic "string"⟩])) := by
  refine ⟨by decide, by decide, rfl, ?_⟩
  intro h
  have h1 : mapGet (skeleton [⟨"A", "x", .struct [⟨"Zip", "zip", .basic "string"⟩]⟩,
        ⟨"B", "x", .basic "string"⟩]) "x" = some .null := rfl
  rw [h1] at h
  simp at h

/-- C10, amended: for every required field `f` with external name `n` that no
later declared required field shares, `skeleton(type)[n]` is the recursively
built skeleton object of `f`'s type when that type is a struct, and `nil` for
every other type (pointers, slices, arrays and maps included). -/
theorem skeleton_value_of_last_field (pre post : List (Field GoType)) (f : Field GoType)
    (hr : required f = true) (hlast : tagName f.tag ∉ requiredNames post) :
    mapGet (skeleton (pre ++ f :: post)) (tagName f.tag)
      = some (match f.type with
          | .struct sub => .obj (skeleton sub)
          | _ => .null) := by
  unfold skeleton
  rw [mapGet_skeletonLoop_last pre post f [] hr hlast, skeletonValue_eq]
  rfl

theorem skeleton_value_of_last_field_witness :
    required (⟨"Address", "address", .struct [⟨"Zip", "zip", .basic "string"⟩]⟩ :
      Field GoType) = true ∧
    tagName "address" ∉ requiredNames [⟨"Home", "home", .ptr (.struct [⟨"Zip", "zip", .basic "string"⟩])⟩] ∧
    mapGet (skeleton ([⟨"Name", "name", .basic "string"⟩] ++
        ⟨"Address", "address", .struct [⟨"Zip", "zip", .basic "string"⟩]⟩ ::
        [⟨"Home", "home", .ptr (.struct [⟨"Zip", "zip", .basic "string"⟩])⟩]))
        "address"
      = some (.obj (skeleton [⟨"Zip", "zip", .basic "string"⟩])) :=
  ⟨by decide, by decide,
    skeleton_value_of_last_field [⟨"Name", "name", .basic "string"⟩]
      [⟨"Home", "home", .ptr (.struct [⟨"Zip", "zip", .basic "string"⟩])⟩]
      ⟨"Address", "address", .struct [⟨"Zip", "zip", .basic "string"⟩]⟩
      (by decide) (by decide)⟩

/-! ## Entry-wise description of the merged tree -/

theorem val_induction {P : Val → Prop}
    (hleaf : ∀ v, (∀ m, v ≠ .obj m) → P v)
    (hobj : ∀ m : GoMap, (∀ k w, (k, w) ∈ m → P w) → P (.obj m)) : ∀ v, P v :=
  val_rec_value (Q := fun m => ∀ k w, (k, w) ∈ m → P w) hleaf hobj
    (by intro k w h; simp at h)
    (by
      intro k v rest hv hr k' w' h
      simp only [List.mem_cons, Prod.mk.injEq] at h
      rcases h with ⟨_, h⟩ | h
      · exact h ▸ hv
      · exact hr k' w' h)

theorem type_induction {P : GoType → Prop}
    (hleaf : ∀ t, (∀ fs, t ≠ .struct fs) → P t)
    (hstruct : ∀ fs : List (Field GoType), (∀ f, f ∈ fs → P f.type) → P (.struct fs)) :
    ∀ t, P t :=
  type_rec_type (Q := fun fs => ∀ f, f ∈ fs → P f.type) hleaf hstruct
    (by intro f h; simp at h)
    (by
      intro n tag t rest ht hr f h
      simp only [List.mem_cons] at h
      rcases h with h | h
      · subst h; exact ht
      · exact hr f h)

theorem nullPaths_merge (s : GoMap) :
    ∀ (d m : GoMap) (parent : String), merge s d = some m →
      nullPaths m parent = s.flatMap (entryPaths d parent) := by
  induction s with
  | nil =>
    intro d m parent h
    simp [merge] at h
    subst h
    simp [nullPaths]
  | cons x rest ih =>
    intro d m parent h
    obtain ⟨k, w⟩ := x
    rw [merge_cons_eq] at h
    cases hr : mergeValue w (mapGet d k) with
    | none => simp [hr] at h
    | some r =>
      cases hm : merge rest d with
      | none => simp [hr, hm] at h
      | some mr =>
        simp [hr, hm] at h
        subst h
        simp [nullPaths, List.flatMap_cons, entryPaths, hr, ih d mr parent hm]

theorem mergeValue_isSome (w : Val) (x : Option Val) (h : isSkelValue w = true) :
    ∃ r, mergeValue w x = some r := by
  obtain ⟨r, hr, _⟩ := merge_skel_aux.1 w h x
  exact ⟨r, hr⟩

/-! ## Well-formedness of skeletons -/

theorem splitComma_ne_nil (cs : List Char) : splitComma cs ≠ [] := by
  induction cs with
  | nil => simp [splitComma]
  | cons c rest ih =>
    simp only [splitComma]
    split
    · simp
    · split <;> simp

theorem tagName_mem_tagArgs (tag : String) : tagName tag ∈ tagArgs tag := by
  unfold tagName tagArgs
  cases h : splitComma tag.data with
  | nil => exact absurd h (splitComma_ne_nil _)
  | cons a l => simp

theorem tagName_ne_empty (f : Field GoType) (h : required f = true) : tagName f.tag ≠ "" := by
  have h1 : skipField (tagArgs f.tag) = false := by simpa [required] using h
  rw [skipField_eq_false_iff] at h1
  exact (h1 _ (tagName_mem_tagArgs f.tag)).2.2

theorem wfSkel_mapSet (data : GoMap) (k : String) (v : Val)
    (hd : wfSkel data = true) (hk : k ≠ "") (hv : wfSkelValue v = true) :
    wfSkel (mapSet data k v) = true := by
  induction data with
  | nil => simp [mapSet, wfSkel, hk, hv, keys]
  | cons x rest ih =>
    obtain ⟨a, b⟩ := x
    simp only [wfSkel, Bool.and_eq_true, decide_eq_true_eq, Bool.not_eq_true',
      List.contains_eq_any_beq, List.any_eq_false, beq_iff_eq] at hd
    by_cases e : a = k
    · subst e
      simp only [mapSet, if_true, wfSkel, Bool.and_eq_true, decide_eq_true_eq,
        Bool.not_eq_true', List.contains_eq_any_beq, List.any_eq_false, beq_iff_eq]
      exact ⟨⟨⟨hk, hd.1.1.2⟩, hv⟩, hd.2⟩
    · simp only [mapSet, e, if_false, wfSkel, Bool.and_eq_true, decide_eq_true_eq,
        Bool.not_eq_true', List.contains_eq_any_beq, List.any_eq_false, beq_iff_eq]
      refine ⟨⟨⟨hd.1.1.1, ?_⟩, hd.1.2⟩, ih hd.2⟩
      intro x hx
      rcases (mem_keys_mapSet rest k x v).mp hx with h | h
      · subst h; exact fun h' => e h'
      · exact hd.1.1.2 x h

theorem wfSkelValue_skeletonValue : ∀ t : GoType, wfSkelValue (skeletonValue t) = true := by
  apply type_induction
  · intro t ht
    cases t with
    | struct fs => exact absurd rfl (ht fs)
    | _ => rfl
  · intro fs ih
    simp only [skeletonValue, wfSkelValue]
    have key : ∀ (l : List (Field GoType)), (∀ f, f ∈ l → f ∈ fs) →
        ∀ data, wfSkel data = true → wfSkel (skeletonLoop l data) = true := by
      intro l
      induction l with
      | nil => intro _ data hd; simpa [skeletonLoop] using hd
      | cons f rest ihl =>
        intro hsub data hd
        rw [skeletonLoop_cons]
        by_cases hr : required f = true
        · rw [if_pos hr]
          exact ihl (fun g hg => hsub g (by simp [hg])) _
            (wfSkel_mapSet _ _ _ hd (tagName_ne_empty f hr) (ih f (hsub f (by simp))))
        · rw [if_neg hr]
          exact ihl (fun g hg => hsub g (by simp [hg])) _ hd
    exact key fs (fun _ h => h) [] rfl

theorem wfSkel_skeleton (fs : List (Field GoType)) : wfSkel (skeleton fs) = true := by
  have := wfSkelValue_skeletonValue (.struct fs)
  simpa [skeletonValue, wfSkelValue] using this

theorem isSkel_of_wfSkel_aux :
    (∀ v : Val, wfSkelValue v = true → isSkelValue v = true) ∧
    (∀ s : GoMap, wfSkel s = true → isSkel s = true) := by
  refine ⟨val_rec_value (Q := fun s => wfSkel s = true → isSkel s = true) ?_ ?_ ?_ ?_,
    val_rec_map (P := fun v => wfSkelValue v = true → isSkelValue v = true) ?_ ?_ ?_ ?_⟩
  all_goals first
    | (intro v hv h
       cases v with
       | obj m => exact absurd rfl (hv m)
       | null => rfl
       | _ => simp [wfSkelValue] at h)
    | (intro m ih h
       simp only [wfSkelValue] at h
       simpa [isSkelValue] using ih h)
    | (intro k v rest ihv ihr h
       simp only [wfSkel, Bool.and_eq_true] at h
       simp [isSkel, ihv h.1.2, ihr h.2])
    | (intro _; rfl)

theorem isSkel_skeleton (fs : List (Field GoType)) : isSkel (skeleton fs) = true :=
  isSkel_of_wfSkel_aux.2 _ (wfSkel_skeleton fs)

/-! ## Completeness of the presence check (C2) -/

theorem complete_cons (f : Field GoType) (rest : List (Field GoType)) (d : GoMap) :
    complete (f :: rest) d = true ↔
      (required f = true → ∃ v, mapGet d (tagName f.tag) = some v ∧
        completeValue f.type v = true) ∧ complete rest d = true := by
  obtain ⟨n, tag, t⟩ := f
  simp only [complete, required, Bool.and_eq_true, Bool.or_eq_true]
  cases hs : skipField (tagArgs tag) with
  | true => simp
  | false =>
    cases hg : mapGet d (tagName tag) with
    | none => simp
    | some v => simp

theorem complete_iff (fs : List (Field GoType)) (d : GoMap) :
    complete fs d = true ↔
      ∀ f, f ∈ fs → required f = true →
        ∃ v, mapGet d (tagName f.tag) = some v ∧ completeValue f.type v = true := by
  induction fs with
  | nil => simp [complete]
  | cons f rest ih =>
    rw [complete_cons, ih]
    constructor
    · rintro ⟨h1, h2⟩ g hg
      simp only [List.mem_cons] at hg
      rcases hg with hg | hg
      · subst hg; exact h1
      · exact h2 g hg
    · intro h
      exact ⟨h f (by simp), fun g hg => h g (by simp [hg])⟩

theorem complete_merge_paths (fs : List (Field GoType))
    (ih : ∀ f, f ∈ fs → CompleteOk f.type) (d : GoMap) (hc : complete fs d = true) :
    ∃ m, merge (skeleton fs) d = some m ∧ ∀ parent, nullPaths m parent = [] := by
  obtain ⟨m, hm⟩ := merge_isSome (skeleton fs) d (isSkel_skeleton fs)
  refine ⟨m, hm, fun parent => ?_⟩
  rw [nullPaths_merge _ _ _ _ hm, List.flatMap_eq_nil_iff]
  intro x hx
  rcases mem_skeletonLoop fs [] x hx with h | ⟨g, hg, hr, hxg⟩
  · simp at h
  · subst hxg
    obtain ⟨v, hv, hcv⟩ := (complete_iff fs d).mp hc g hg hr
    obtain ⟨r, hr1, hr2⟩ := ih g hg v hcv
    simp [entryPaths, hv, hr1, hr2]

theorem completeOk_all : ∀ t : GoType, CompleteOk t := by
  apply type_induction
  · intro t ht v hv
    have hs : skeletonValue t = .null := by
      cases t with
      | struct fs => exact absurd rfl (ht fs)
      | _ => rfl
    rw [hs]
    cases v with
    | null => cases t <;> simp [completeValue] at hv
    | obj o => exact ⟨.obj [], rfl, fun tag => by simp [nullPathsValue, nullPaths]⟩
    | _ => exact ⟨_, rfl, fun tag => by simp [nullPathsValue]⟩
  · intro fs ih v hv
    cases v with
    | null => simp [completeValue] at hv
    | obj o =>
      simp only [completeValue] at hv
      obtain ⟨m, hm, hp⟩ := complete_merge_paths fs ih o hv
      refine ⟨.obj m, ?_, fun tag => by simpa [nullPathsValue] using hp tag⟩
      have hm' : merge (skeletonLoop fs []) o = some m := hm
      simp [skeletonValue, mergeValue, hm']
    | _ => exact ⟨_, rfl, fun tag => by simp [nullPathsValue]⟩

/-- C2: when the document holds a non-null value for every required field of
the record type, transitively through nested records given as objects, then
`merge(skeleton(type), d)` is produced and `check` on it returns no error, in
every iteration order of the merged map. -/
theorem check_merge_complete (fs : List (Field GoType)) (d : GoMap)
    (h : complete fs d = true) :
    ∃ m, merge (skeleton fs) d = some m ∧ ∀ m', SameMap m m' → check m' "" = none := by
  obtain ⟨m, hm, hp⟩ := complete_merge_paths fs (fun f _ => completeOk_all f.type) d h
  exact ⟨m, hm, fun m' hs => check_none_of_nullPaths_nil "" hs (hp "")⟩

theorem check_merge_complete_witness :
    complete [⟨"Name", "name", .basic "string"⟩, ⟨"Age", "age,optional", .basic "int"⟩,
        ⟨"Address", "address", .struct [⟨"Zip", "zip", .basic "string"⟩,
          ⟨"City", "city,optional", .basic "string"⟩]⟩]
      [("name", .str "a"), ("address", .obj [("zip", .str "1")])] = true ∧
    ∃ m, merge (skeleton [⟨"Name", "name", .basic "string"⟩,
        ⟨"Age", "age,optional", .basic "int"⟩,
        ⟨"Address", "address", .struct [⟨"Zip", "zip", .basic "string"⟩,
          ⟨"City", "city,optional", .basic "string"⟩]⟩])
      [("name", .str "a"), ("address", .obj [("zip", .str "1")])] = some m ∧
      ∀ m', SameMap m m' → check m' "" = none :=
  ⟨by decide, check_merge_complete _ _ (by decide)⟩

/-! ## Paths reported by `check` (C6) -/

theorem string_append_ne_empty_left (a b : String) (h : a ≠ "") : a ++ b ≠ "" := by
  intro e
  apply h
  have h1 : (a ++ b).data = [] := by rw [e]
  rw [String.data_append] at h1
  have h2 : a.data = [] := (List.append_eq_nil.mp h1).1
  exact String.ext h2

theorem joinTag_ne_empty (parent k : String) (h : k ≠ "") : joinTag parent k ≠ "" := by
  rw [joinTag_eq]
  by_cases e : parent = ""
  · simpa [e] using h
  · simp only [e, if_false]
    rw [String.append_assoc]
    exact string_append_ne_empty_left _ _ e

theorem foldl_joinTag_eq_go (ks : List String) :
    ∀ acc : String, acc ≠ "" → ks.foldl joinTag acc = String.intercalate.go acc "." ks := by
  induction ks with
  | nil => intro acc _; simp [String.intercalate.go]
  | cons k rest ih =>
    intro acc h
    have hj : joinTag acc k = acc ++ "." ++ k := by simp [joinTag_eq, h]
    simp only [List.foldl_cons, String.intercalate.go]
    rw [hj]
    apply ih
    rw [String.append_assoc]
    exact string_append_ne_empty_left _ _ h

/-- Along non-empty keys, the path built by `check` from the root is the
dot-joined chain of the keys. -/
theorem pathFrom_eq_intercalate (ks : List String) (h : ∀ k, k ∈ ks → k ≠ "") :
    pathFrom "" ks = String.intercalate "." ks := by
  cases ks with
  | nil => rfl
  | cons k rest =>
    have hk : k ≠ "" := h k (by simp)
    have hj : joinTag "" k = k := by simp [joinTag_eq]
    simp only [pathFrom, List.foldl_cons, String.intercalate, hj]
    exact foldl_joinTag_eq_go rest k hk

theorem typePath_keys_ne_empty {fs : List (Field GoType)} {ks : List String}
    (h : TypePath fs ks) : ∀ k, k ∈ ks → k ≠ "" := by
  induction h with
  | last _ hr =>
    intro k hk
    simp only [List.mem_singleton] at hk
    subst hk
    exact tagName_ne_empty _ hr
  | cons _ hr _ _ ih =>
    intro k hk
    simp only [List.mem_cons] at hk
    rcases hk with hk | hk
    · subst hk; exact tagName_ne_empty _ hr
    · exact ih k hk

theorem merge_explicit_nulls (s d : GoMap)
    (h : ∀ k w, (k, w) ∈ s → mapGet d k = some .null) : merge s d = some s := by
  induction s with
  | nil => simp [merge]
  | cons x rest ih =>
    obtain ⟨k, w⟩ := x
    rw [merge_cons_eq, h k w (by simp), ih (fun k' w' hm => h k' w' (by simp [hm]))]
    cases w <;> rfl

theorem mapGet_nullDoc (s : GoMap) (k : String) (w : Val) (h : (k, w) ∈ s) :
    mapGet (s.map (fun x => (x.1, Val.null))) k = some .null := by
  induction s with
  | nil => simp at h
  | cons x rest ih =>
    obtain ⟨a, b⟩ := x
    by_cases e : a = k
    · simp [mapGet, e]
    · simp only [List.mem_cons, Prod.mk.injEq] at h
      rcases h with ⟨h1, _⟩ | h
      · exact absurd h1.symm e
      · simp [mapGet, e, ih h]

theorem nullPaths_merge_typePath (fs : List (Field GoType))
    (ih : ∀ f, f ∈ fs → PathOk f.type) (d m : GoMap) (parent p : String)
    (hm : merge (skeleton fs) d = some m) (hp : p ∈ nullPaths m parent) :
    ∃ ks, TypePath fs ks ∧ SkelPath (skeleton fs) ks ∧ p = pathFrom parent ks := by
  rw [nullPaths_merge _ _ _ _ hm, List.mem_flatMap] at hp
  obtain ⟨x, hx, hpx⟩ := hp
  rcases mem_skeletonLoop fs [] x hx with h | ⟨g, hg, hr, hxg⟩
  · simp at h
  · subst hxg
    simp only [entryPaths] at hpx
    cases hv : mergeValue (skeletonValue g.type) (mapGet d (tagName g.tag)) with
    | none => simp [hv] at hpx
    | some r =>
      simp only [hv] at hpx
      rcases ih g hg _ r _ p (joinTag_ne_empty parent _ (tagName_ne_empty g hr)) hv hpx with
        h | ⟨sub, ks, ht, htp, hsp, hpk⟩
      · exact ⟨[tagName g.tag], TypePath.last hg hr, SkelPath.last hx,
          by simp [pathFrom, h]⟩
      · have hx' : (tagName g.tag, Val.obj (skeleton sub)) ∈ skeleton fs := by
          rw [ht] at hx
          exact hx
        exact ⟨tagName g.tag :: ks, TypePath.cons hg hr ht htp, SkelPath.cons hx' hsp,
          by simp [pathFrom, hpk]⟩

theorem pathOk_all : ∀ t : GoType, PathOk t := by
  apply type_induction
  · intro t ht x r tag p _ hm hp
    have hs : skeletonValue t = .null := by
      cases t with
      | struct fs => exact absurd rfl (ht fs)
      | _ => rfl
    rw [hs] at hm
    left
    cases x with
    | none =>
      simp [mergeValue] at hm; subst hm
      simpa [nullPathsValue] using hp
    | some y =>
      cases y <;> simp [mergeValue] at hm <;> subst hm <;>
        simp [nullPathsValue, nullPaths] at hp
      exact hp
  · intro fs ih x r tag p htag hm hp
    simp only [skeletonValue] at hm
    cases x with
    | none =>
      simp [mergeValue] at hm; subst hm
      left; simpa [nullPathsValue] using hp
    | some y =>
      cases y with
      | null =>
        simp [mergeValue] at hm; subst hm
        simp only [nullPathsValue] at hp
        right
        have hself : merge (skeleton fs) ((skeleton fs).map (fun x => (x.1, Val.null)))
            = some (skeleton fs) :=
          merge_explicit_nulls _ _ (fun k w h => mapGet_nullDoc _ k w h)
        obtain ⟨ks, h1, h2, h3⟩ := nullPaths_merge_typePath fs ih _ _ tag p hself hp
        exact ⟨fs, ks, rfl, h1, h2, h3⟩
      | obj o =>
        cases hmo : merge (skeletonLoop fs []) o with
        | none => simp [mergeValue, hmo] at hm
        | some m' =>
          simp [mergeValue, hmo] at hm; subst hm
          simp only [nullPathsValue] at hp
          right
          obtain ⟨ks, h1, h2, h3⟩ := nullPaths_merge_typePath fs ih o m' tag p hmo hp
          exact ⟨fs, ks, rfl, h1, h2, h3⟩
      | _ =>
        simp [mergeValue] at hm; subst hm
        simp [nullPathsValue] at hp

/-- C6: whenever `check` on `merge(skeleton(type), d)` returns a missing-field
error, in whatever iteration order, its path is the dot-joined chain of the
keys `ks` of a path in `skeleton(type)`, and every component is the external
name of a field that `skeleton` does not skip (at the top level, or in the
nested record type of the component before it); fields tagged optional,
excluded or untagged are therefore never named. -/
theorem check_error_names_required_fields (fs : List (Field GoType)) (d m m' : GoMap)
    (e : ParseError) (hm : merge (skeleton fs) d = some m) (hs : SameMap m m')
    (he : check m' "" = some e) :
    ∃ ks, SkelPath (skeleton fs) ks ∧ TypePath fs ks ∧
      e = .missingField (String.intercalate "." ks) := by
  obtain ⟨p, hp, hep⟩ := check_some_mem "" e hs he
  obtain ⟨ks, h1, h2, h3⟩ :=
    nullPaths_merge_typePath fs (fun f _ => pathOk_all f.type) d m "" p hm hp
  refine ⟨ks, h2, h1, ?_⟩
  rw [hep, h3, pathFrom_eq_intercalate ks (typePath_keys_ne_empty h1)]

theorem check_error_names_required_fields_witness :
    merge (skeleton [⟨"Name", "name", .basic "string"⟩,
        ⟨"Age", "age,optional", .basic "int"⟩,
        ⟨"Address", "address", .struct [⟨"Zip", "zip", .basic "string"⟩]⟩])
      [("address", .obj [])]
      = some [("name", .null), ("address", .obj [("zip", .null)])] ∧
    SameMap [("name", .null), ("address", .obj [("zip", .null)])]
      [("address", .obj [("zip", .null)]), ("name", .null)] ∧
    check [("address", .obj [("zip", .null)]), ("name", .null)] ""
      = some (.missingField "address.zip") ∧
    ∃ ks, SkelPath (skeleton [⟨"Name", "name", .basic "string"⟩,
        ⟨"Age", "age,optional", .basic "int"⟩,
        ⟨"Address", "address", .struct [⟨"Zip", "zip", .basic "string"⟩]⟩]) ks ∧
      TypePath [⟨"Name", "name", .basic "string"⟩,
        ⟨"Age", "age,optional", .basic "int"⟩,
        ⟨"Address", "address", .struct [⟨"Zip", "zip", .basic "string"⟩]⟩] ks ∧
      ParseError.missingField "address.zip"
        = .missingField (String.intercalate "." ks) :=
  ⟨rfl, SameMap.swap _ _ _, by decide,
    check_error_names_required_fields _ [("address", .obj [])] _ _ _ rfl
      (SameMap.swap _ _ _) (by decide)⟩

/-! ## An absent nested record (C4) -/

theorem nodup_keys_of_wfSkel (s : GoMap) (h : wfSkel s = true) : (keys s).Nodup := by
  induction s with
  | nil => simp [keys]
  | cons x rest ih =>
    obtain ⟨k, v⟩ := x
    simp only [wfSkel, Bool.and_eq_true, decide_eq_true_eq, Bool.not_eq_true',
      List.contains_eq_any_beq, List.any_eq_false, beq_iff_eq] at h
    simp only [keys, List.map_cons, List.nodup_cons]
    refine ⟨?_, ih h.2⟩
    intro hk
    exact h.1.1.2 k hk rfl

theorem flatMap_single (s : GoMap) (F : String × Val → List String) (k p : String)
    (hn : (keys s).Nodup) (hk : k ∈ keys s)
    (h1 : ∀ x, x ∈ s → x.1 = k → F x = [p])
    (h2 : ∀ x, x ∈ s → x.1 ≠ k → F x = []) : s.flatMap F = [p] := by
  induction s with
  | nil => simp [keys] at hk
  | cons x rest ih =>
    simp only [keys, List.map_cons, List.nodup_cons] at hn
    simp only [List.flatMap_cons]
    by_cases e : x.1 = k
    · have hrest : rest.flatMap F = [] := by
        rw [List.flatMap_eq_nil_iff]
        intro y hy
        apply h2 y (by simp [hy])
        intro ey
        apply hn.1
        rw [e, ← ey]
        exact List.mem_map.mpr ⟨y, hy, rfl⟩
      rw [h1 x (by simp) e, hrest]
      rfl
    · have hk' : k ∈ keys rest := by
        simp only [keys, List.map_cons, List.mem_cons] at hk
        rcases hk with hk | hk
        · exact absurd hk.symm e
        · exact hk
      rw [h2 x (by simp) e, ih hn.2 hk' (fun y hy => h1 y (by simp [hy]))
        (fun y hy => h2 y (by simp [hy]))]
      rfl

theorem mapGet_merge (s : GoMap) :
    ∀ (d m : GoMap) (k : String), merge s d = some m →
      mapGet m k = (mapGet s k).bind (fun w => mergeValue w (mapGet d k)) := by
  induction s with
  | nil =>
    intro d m k h
    simp [merge] at h
    subst h
    simp [mapGet]
  | cons x rest ih =>
    intro d m k h
    obtain ⟨a, w⟩ := x
    rw [merge_cons_eq] at h
    cases hr : mergeValue w (mapGet d a) with
    | none => simp [hr] at h
    | some r =>
      cases hm : merge rest d with
      | none => simp [hr, hm] at h
      | some mr =>
        simp [hr, hm] at h
        subst h
        by_cases e : a = k
        · subst e; simp [mapGet, hr]
        · simp [mapGet, e, ih d mr k hm]

theorem mapGet_some_of_mem_keys (s : GoMap) (k : String) (h : k ∈ keys s) :
    ∃ w, mapGet s k = some w ∧ (k, w) ∈ s := by
  induction s with
  | nil => simp [keys] at h
  | cons x rest ih =>
    obtain ⟨a, b⟩ := x
    by_cases e : a = k
    · subst e; exact ⟨b, by simp [mapGet], by simp⟩
    · simp only [keys, List.map_cons, List.mem_cons] at h
      rcases h with h | h
      · exact absurd h.symm e
      · obtain ⟨w, hw, hm⟩ := ih h
        exact ⟨w, by simp [mapGet, e, hw], by simp [hm]⟩

theorem mergeValue_skeletonValue_none (t : GoType) :
    mergeValue (skeletonValue t) none = some .null := by
  cases t <;> rfl

theorem entryPaths_of_completeValue (g : Field GoType) (d : GoMap) (parent : String)
    (h : ∃ v, mapGet d (tagName g.tag) = some v ∧ completeValue g.type v = true) :
    entryPaths d parent (tagName g.tag, skeletonValue g.type) = [] := by
  obtain ⟨v, hv, hcv⟩ := h
  obtain ⟨r, hr1, hr2⟩ := completeOk_all g.type v hcv
  simp [entryPaths, hv, hr1, hr2]

/-- C4 as stated fails for a nested-record field that the specification's
rule calls required and `skeleton` skips: with the tag `address,` (name
`address`, one empty modifier) and a document without the key, the skeleton
is empty and `check` returns no error instead of naming `address`. -/
theorem check_absent_nested_record_skipped :
    specRequired "address," = true ∧ tagName "address," = "address" ∧
    required (⟨"Address", "address,", .struct [⟨"Zip", "zip", .basic "string"⟩]⟩ :
      Field GoType) = false ∧
    mapGet [] "address" = none ∧
    merge (skeleton [⟨"Address", "address,", .struct [⟨"Zip", "zip", .basic "string"⟩]⟩]) []
      = some [] ∧
    check [] "" = none := by
  refine ⟨by decide, by decide, by decide, rfl, rfl, rfl⟩

/-- C4, amended: when a nested-record field `k` that `skeleton` does not skip
(no segment of its tag is `optional`, `-` or empty) is entirely absent from
the document and every non-skipped field of another name has a non-null value
(transitively), `merge` stores a single `nil` at `k` and `check` reports the
missing-field error naming `k` itself, in every iteration order. -/
theorem check_absent_nested_record (fs sub : List (Field GoType)) (f : Field GoType)
    (d : GoMap) (hf : f ∈ fs) (hr : required f = true) (_ht : f.type = .struct sub)
    (hk : mapGet d (tagName f.tag) = none)
    (hc : complete (fs.filter (fun g => decide (tagName g.tag ≠ tagName f.tag))) d = true) :
    ∃ m, merge (skeleton fs) d = some m ∧ mapGet m (tagName f.tag) = some .null ∧
      ∀ m', SameMap m m' → check m' "" = some (.missingField (tagName f.tag)) := by
  obtain ⟨m, hm⟩ := merge_isSome (skeleton fs) d (isSkel_skeleton fs)
  have hkey : tagName f.tag ∈ keys (skeleton fs) := by
    unfold skeleton
    rw [mem_keys_skeletonLoop, mem_requiredNames]
    exact Or.inr ⟨f, hf, hr, rfl⟩
  have hval : ∀ x, x ∈ skeleton fs → x.1 = tagName f.tag →
      mergeValue x.2 (mapGet d x.1) = some .null := by
    intro x hx hxk
    rcases mem_skeletonLoop fs [] x hx with h | ⟨g, _, _, hxg⟩
    · simp at h
    · subst hxg
      simp only at hxk
      simp only [hxk, hk]
      exact mergeValue_skeletonValue_none g.type
  refine ⟨m, hm, ?_, fun m' hs => ?_⟩
  · obtain ⟨w, hw, hmem⟩ := mapGet_some_of_mem_keys _ _ hkey
    rw [mapGet_merge _ _ _ _ hm, hw]
    exact hval (tagName f.tag, w) hmem rfl
  · apply check_of_nullPaths_single "" _ hs
    rw [nullPaths_merge _ _ _ _ hm]
    apply flatMap_single _ _ (tagName f.tag) _ (nodup_keys_of_wfSkel _ (wfSkel_skeleton fs)) hkey
    · intro x hx hxk
      have := hval x hx hxk
      simp [entryPaths, this, nullPathsValue, hxk, joinTag_eq]
      rw [hxk] at this
      simp [this, nullPathsValue]
    · intro x hx hxk
      rcases mem_skeletonLoop fs [] x hx with h | ⟨g, hg, hgr, hxg⟩
      · simp at h
      · subst hxg
        apply entryPaths_of_completeValue
        apply (complete_iff _ d).mp hc g _ hgr
        simp only [List.mem_filter, decide_eq_true_eq]
        exact ⟨hg, hxk⟩

theorem check_absent_nested_record_witness :
    (⟨"Address", "address", .struct [⟨"Zip", "zip", .basic "string"⟩]⟩ : Field GoType)
      ∈ [⟨"Name", "name", .basic "string"⟩,
        ⟨"Address", "address", .struct [⟨"Zip", "zip", .basic "string"⟩]⟩] ∧
    mapGet [("name", .str "a")] (tagName "address") = none ∧
    ∃ m, merge (skeleton [⟨"Name", "name", .basic "string"⟩,
        ⟨"Address", "address", .struct [⟨"Zip", "zip", .basic "string"⟩]⟩])
        [("name", .str "a")] = some m ∧
      mapGet m (tagName "address") = some .null ∧
      ∀ m', SameMap m m' → check m' "" = some (.missingField (tagName "address")) :=
  ⟨by simp, rfl,
    check_absent_nested_record [⟨"Name", "name", .basic "string"⟩,
        ⟨"Address", "address", .struct [⟨"Zip", "zip", .basic "string"⟩]⟩]
      [⟨"Zip", "zip", .basic "string"⟩]
      ⟨"Address", "address", .struct [⟨"Zip", "zip", .basic "string"⟩]⟩
      [("name", .str "a")] (by simp) (by decide) rfl rfl (by decide)⟩

/-! ## Records with distinct field names -/

theorem distinct_cons (f : Field GoType) (rest : List (Field GoType)) :
    distinct (f :: rest) = true ↔
      (required f = true →
        tagName f.tag ∉ requiredNames rest ∧ distinctType f.type = true) ∧
      distinct rest = true := by
  obtain ⟨n, tag, t⟩ := f
  simp only [distinct, required, Bool.and_eq_true, Bool.or_eq_true]
  cases hs : skipField (tagArgs tag) <;> simp

theorem distinct_split (fs : List (Field GoType)) (f : Field GoType)
    (hd : distinct fs = true) (hf : f ∈ fs) (hr : required f = true) :
    ∃ pre post, fs = pre ++ f :: post ∧ tagName f.tag ∉ requiredNames post ∧
      distinctType f.type = true := by
  induction fs with
  | nil => simp at hf
  | cons g rest ih =>
    rw [distinct_cons] at hd
    simp only [List.mem_cons] at hf
    rcases hf with hf | hf
    · subst hf
      exact ⟨[], rest, rfl, (hd.1 hr).1, (hd.1 hr).2⟩
    · obtain ⟨pre, post, h1, h2, h3⟩ := ih hd.2 hf
      exact ⟨g :: pre, post, by simp [h1], h2, h3⟩

theorem mapGet_of_mem_nodup (s : GoMap) (k : String) (w : Val)
    (hn : (keys s).Nodup) (h : (k, w) ∈ s) : mapGet s k = some w := by
  induction s with
  | nil => simp at h
  | cons x rest ih =>
    obtain ⟨a, b⟩ := x
    simp only [keys, List.map_cons, List.nodup_cons] at hn
    simp only [List.mem_cons, Prod.mk.injEq] at h
    rcases h with ⟨h1, h2⟩ | h
    · simp [mapGet, h1, h2]
    · have hne : a ≠ k := by
        intro e
        apply hn.1
        rw [e]
        exact List.mem_map.mpr ⟨(k, w), h, rfl⟩
      simp [mapGet, hne, ih hn.2 h]

/-- With distinct names the skeleton holds, for every required field, the
value built from that field's type. -/
theorem skeleton_entry_eq (fs : List (Field GoType)) (f : Field GoType)
    (x : String × Val) (hd : distinct fs = true) (hf : f ∈ fs) (hr : required f = true)
    (hx : x ∈ skeleton fs) (hxk : x.1 = tagName f.tag) : x.2 = skeletonValue f.type := by
  obtain ⟨pre, post, h1, h2, _⟩ := distinct_split fs f hd hf hr
  have hg : mapGet (skeleton fs) (tagName f.tag) = some (skeletonValue f.type) := by
    rw [h1]
    exact mapGet_skeletonLoop_last pre post f [] hr h2
  obtain ⟨k, w⟩ := x
  simp only at hxk
  subst hxk
  have := mapGet_of_mem_nodup _ _ _ (nodup_keys_of_wfSkel _ (wfSkel_skeleton fs)) hx
  rw [hg] at this
  exact (Option.some.inj this).symm

theorem mem_keys_skeleton_of_required (fs : List (Field GoType)) (f : Field GoType)
    (hf : f ∈ fs) (hr : required f = true) : tagName f.tag ∈ keys (skeleton fs) := by
  unfold skeleton
  rw [mem_keys_skeletonLoop, mem_requiredNames]
  exact Or.inr ⟨f, hf, hr, rfl⟩

theorem entryPaths_other (fs : List (Field GoType)) (d d' : GoMap) (parent : String)
    (x : String × Val) (hc : complete fs d = true) (hx : x ∈ skeleton fs)
    (hg : mapGet d' x.1 = mapGet d x.1) : entryPaths d' parent x = [] := by
  rcases mem_skeletonLoop fs [] x hx with h | ⟨g, hgm, hgr, hxg⟩
  · simp at h
  · have h0 : entryPaths d' parent x = entryPaths d parent x := by
      simp [entryPaths, hg]
    rw [h0, hxg]
    exact entryPaths_of_completeValue g d parent ((complete_iff fs d).mp hc g hgm hgr)

/-! ## Exactly one missing leaf (C3) -/

theorem leafAt_keys_ne_empty {fs : List (Field GoType)} {d : GoMap} {path : List String}
    {k : String} (h : LeafAt fs d path k) : ∀ x, x ∈ path ++ [k] → x ≠ "" := by
  induction h with
  | here _ hr _ =>
    intro x hx
    simp only [List.nil_append, List.mem_singleton] at hx
    subst hx
    exact tagName_ne_empty _ hr
  | under _ hr _ _ _ ih =>
    intro x hx
    simp only [List.cons_append, List.mem_cons] at hx
    rcases hx with hx | hx
    · subst hx; exact tagName_ne_empty _ hr
    · exact ih x hx

/-- Main step: an update of the document that removes or nulls the leaf at
`path`, `k` leaves exactly one reachable `nil` in the merged tree, at the
path of the leaf. -/
theorem leaf_update_paths (upd : GoMap → List String → String → GoMap)
    (h0 : ∀ d k, mapGet (upd d [] k) k = none ∨ mapGet (upd d [] k) k = some .null)
    (h0' : ∀ d k k', k ≠ k' → mapGet (upd d [] k) k' = mapGet d k')
    (h1 : ∀ d k0 path k o, mapGet d k0 = some (.obj o) →
      upd d (k0 :: path) k = mapSet d k0 (.obj (upd o path k)))
    {fs : List (Field GoType)} {d : GoMap} {path : List String} {k : String}
    (hl : LeafAt fs d path k) :
    distinct fs = true → complete fs d = true → ∀ parent,
      ∃ m, merge (skeleton fs) (upd d path k) = some m ∧
        nullPaths m parent = [pathFrom parent (path ++ [k])] := by
  induction hl with
  | @here fs d f hf hr hns =>
    intro hd hc parent
    obtain ⟨m, hm⟩ := merge_isSome (skeleton fs) (upd d [] (tagName f.tag)) (isSkel_skeleton fs)
    refine ⟨m, hm, ?_⟩
    rw [nullPaths_merge _ _ _ _ hm]
    apply flatMap_single _ _ (tagName f.tag) _
      (nodup_keys_of_wfSkel _ (wfSkel_skeleton fs)) (mem_keys_skeleton_of_required fs f hf hr)
    · intro x hx hxk
      have hw := skeleton_entry_eq fs f x hd hf hr hx hxk
      have hnull : skeletonValue f.type = .null := by
        cases ht : f.type with
        | struct sub => exact absurd ht (hns sub)
        | _ => rfl
      rw [hnull] at hw
      simp only [entryPaths, hw, hxk]
      rcases h0 d (tagName f.tag) with h | h <;> rw [h] <;>
        simp [mergeValue, nullPathsValue, pathFrom]
    · intro x hx hxk
      exact entryPaths_other fs d _ parent x hc hx (h0' d _ _ (fun e => hxk e.symm))
  | @under fs sub d o g path key hg hr ht hgo _ ih =>
    intro hd hc parent
    obtain ⟨_, _, _, _, hdt⟩ := distinct_split fs g hd hg hr
    have hdsub : distinct sub = true := by
      rw [ht] at hdt
      simpa [distinctType] using hdt
    have hcsub : complete sub o = true := by
      obtain ⟨v, hv, hcv⟩ := (complete_iff fs d).mp hc g hg hr
      rw [hgo] at hv
      cases hv
      rw [ht] at hcv
      simpa [completeValue] using hcv
    obtain ⟨m', hm', hp'⟩ := ih hdsub hcsub (joinTag parent (tagName g.tag))
    rw [h1 d (tagName g.tag) path key o hgo]
    obtain ⟨m, hm⟩ := merge_isSome (skeleton fs)
      (mapSet d (tagName g.tag) (.obj (upd o path key))) (isSkel_skeleton fs)
    refine ⟨m, hm, ?_⟩
    rw [nullPaths_merge _ _ _ _ hm]
    apply flatMap_single _ _ (tagName g.tag) _
      (nodup_keys_of_wfSkel _ (wfSkel_skeleton fs)) (mem_keys_skeleton_of_required fs g hg hr)
    · intro x hx hxk
      have hw := skeleton_entry_eq fs g x hd hg hr hx hxk
      rw [ht] at hw
      have hm'' : merge (skeletonLoop sub []) (upd o path key) = some m' := hm'
      simp [entryPaths, hw, hxk, mapGet_mapSet_same, skeletonValue, mergeValue, hm'',
        nullPathsValue, hp', pathFrom]
    · intro x hx hxk
      exact entryPaths_other fs d _ parent x hc hx
        (mapGet_mapSet_other _ _ _ _ (fun e => hxk e.symm))

/-- C3 as stated fails when a later required field reuses the name of the
leaf: the skeleton then holds a nested map at that name, and setting the leaf
to `null` makes `check` report an inner path instead of the leaf's path. -/
theorem check_missing_leaf_shadowed :
    complete [⟨"A", "x", .basic "string"⟩,
        ⟨"B", "x", .struct [⟨"Zip", "zip", .basic "string"⟩]⟩]
      [("x", .obj [("zip", .str "1")])] = true ∧
    required (⟨"A", "x", .basic "string"⟩ : Field GoType) = true ∧
    tagName "x" = "x" ∧
    merge (skeleton [⟨"A", "x", .basic "string"⟩,
        ⟨"B", "x", .struct [⟨"Zip", "zip", .basic "string"⟩]⟩])
      (setAt [("x", .obj [("zip", .str "1")])] [] "x" .null)
      = some [("x", .obj [("zip", .null)])] ∧
    check [("x", .obj [("zip", .null)])] "" = some (.missingField "x.zip") ∧
    check [("x", .obj [("zip", .null)])] "" ≠ some (.missingField "x") := by
  refine ⟨by decide, by decide, by decide, rfl, by decide, by decide⟩

/-- C3, amended: for a record type in which no two required fields of the
same record share an external name, a document with non-null values for all
required fields (transitively) and a required leaf field at dotted path `p`
(top-level, or inside nested required records supplied as objects): removing
the field, and setting it to `null`, both make `check` on the merged tree
return the missing-field error naming exactly `p`, in every iteration order. -/
theorem check_missing_leaf (fs : List (Field GoType)) (d : GoMap) (path : List String)
    (k : String) (hd : distinct fs = true) (hc : complete fs d = true)
    (hl : LeafAt fs d path k) :
    (∃ m, merge (skeleton fs) (deleteAt d path k) = some m ∧
      ∀ m', SameMap m m' →
        check m' "" = some (.missingField (String.intercalate "." (path ++ [k])))) ∧
    (∃ m, merge (skeleton fs) (setAt d path k .null) = some m ∧
      ∀ m', SameMap m m' →
        check m' "" = some (.missingField (String.intercalate "." (path ++ [k])))) := by
  have hp := pathFrom_eq_intercalate (path ++ [k]) (leafAt_keys_ne_empty hl)
  constructor
  · obtain ⟨m, hm, hn⟩ := leaf_update_paths deleteAt
      (fun d k => Or.inl (by simp [deleteAt, mapGet_mapDelete_same]))
      (fun d k k' h => by simp [deleteAt, mapGet_mapDelete_other _ _ _ h])
      (fun d k0 path k o h => by simp [deleteAt, h]) hl hd hc ""
    rw [hp] at hn
    exact ⟨m, hm, fun m' hs => check_of_nullPaths_single "" _ hs hn⟩
  · obtain ⟨m, hm, hn⟩ := leaf_update_paths (fun d path k => setAt d path k .null)
      (fun d k => Or.inr (by simp [setAt, mapGet_mapSet_same]))
      (fun d k k' h => by simp [setAt, mapGet_mapSet_other _ _ _ _ h])
      (fun d k0 path k o h => by simp [setAt, h]) hl hd hc ""
    rw [hp] at hn
    exact ⟨m, hm, fun m' hs => check_of_nullPaths_single "" _ hs hn⟩

theorem check_missing_leaf_witness :
    distinct [⟨"Name", "name", .basic "string"⟩,
        ⟨"Address", "address", .struct [⟨"Zip", "zip", .basic "string"⟩]⟩] = true ∧
    complete [⟨"Name", "name", .basic "string"⟩,
        ⟨"Address", "address", .struct [⟨"Zip", "zip", .basic "string"⟩]⟩]
      [("name", .str "a"), ("address", .obj [("zip", .str "1")])] = true ∧
    String.intercalate "." ([tagName "address"] ++ [tagName "zip"]) = "address.zip" ∧
    (∃ m, merge (skeleton [⟨"Name", "name", .basic "string"⟩,
          ⟨"Address", "address", .struct [⟨"Zip", "zip", .basic "string"⟩]⟩])
        (deleteAt [("name", .str "a"), ("address", .obj [("zip", .str "1")])]
          [tagName "address"] (tagName "zip")) = some m ∧
      ∀ m', SameMap m m' →
        check m' "" = some (.missingField
          (String.intercalate "." ([tagName "address"] ++ [tagName "zip"])))) ∧
    (∃ m, merge (skeleton [⟨"Name", "name", .basic "string"⟩,
          ⟨"Address", "address", .struct [⟨"Zip", "zip", .basic "string"⟩]⟩])
        (setAt [("name", .str "a"), ("address", .obj [("zip", .str "1")])]
          [tagName "address"] (tagName "zip") .null) = some m ∧
      ∀ m', SameMap m m' →
        check m' "" = some (.missingField
          (String.intercalate "." ([tagName "address"] ++ [tagName "zip"])))) :=
  ⟨by decide, by decide, by decide,
    check_missing_leaf
      [⟨"Name", "name", .basic "string"⟩,
        ⟨"Address", "address", .struct [⟨"Zip", "zip", .basic "string"⟩]⟩]
      [("name", .str "a"), ("address", .obj [("zip", .str "1")])]
      [tagName "address"] (tagName "zip") (by decide) (by decide)
      (LeafAt.under
        (g := ⟨"Address", "address", .struct [⟨"Zip", "zip", .basic "string"⟩]⟩)
        (by simp) (by decide) rfl rfl
        (LeafAt.here (f := ⟨"Zip", "zip", .basic "string"⟩) (by simp) (by decide)
          (by intro sub h; cases h)))⟩

/-! ## Soundness of the presence check (C1) -/

theorem present_cons (f : Field GoType) (rest : List (Field GoType)) (d : GoMap) :
    present (f :: rest) d = true ↔
      (required f = true → ∃ v, mapGet d (tagName f.tag) = some v ∧
        presentValue f.type v = true) ∧ present rest d = true := by
  obtain ⟨n, tag, t⟩ := f
  simp only [present, required, Bool.and_eq_true, Bool.or_eq_true]
  cases hs : skipField (tagArgs tag) with
  | true => simp
  | false =>
    cases hg : mapGet d (tagName tag) with
    | none => simp
    | some v => simp

theorem present_iff (fs : List (Field GoType)) (d : GoMap) :
    present fs d = true ↔
      ∀ f, f ∈ fs → required f = true →
        ∃ v, mapGet d (tagName f.tag) = some v ∧ presentValue f.type v = true := by
  induction fs with
  | nil => simp [present]
  | cons f rest ih =>
    rw [present_cons, ih]
    constructor
    · rintro ⟨h1, h2⟩ g hg
      simp only [List.mem_cons] at hg
      rcases hg with hg | hg
      · subst hg; exact h1
      · exact h2 g hg
    · intro h
      exact ⟨h f (by simp), fun g hg => h g (by simp [hg])⟩

theorem leafless_iff (fs : List (Field GoType)) :
    leafless fs = true ↔ ∀ f, f ∈ fs → required f = true → leaflessType f.type = true := by
  induction fs with
  | nil => simp [leafless]
  | cons f rest ih =>
    obtain ⟨n, tag, t⟩ := f
    simp only [leafless, Bool.and_eq_true, Bool.or_eq_true, ih, List.mem_cons,
      forall_eq_or_imp, required]
    cases hs : skipField (tagArgs tag) <;> simp

theorem mem_of_mapGet (s : GoMap) (k : String) (w : Val) (h : mapGet s k = some w) :
    (k, w) ∈ s := by
  induction s with
  | nil => simp [mapGet] at h
  | cons x rest ih =>
    obtain ⟨a, b⟩ := x
    by_cases e : a = k
    · simp [mapGet, e] at h
      simp [e, h]
    · simp [mapGet, e] at h
      simp [ih h]

theorem skeleton_mem_of_required (fs : List (Field GoType)) (f : Field GoType)
    (hd : distinct fs = true) (hf : f ∈ fs) (hr : required f = true) :
    (tagName f.tag, skeletonValue f.type) ∈ skeleton fs := by
  obtain ⟨pre, post, h1, h2, _⟩ := distinct_split fs f hd hf hr
  apply mem_of_mapGet
  rw [h1]
  exact mapGet_skeletonLoop_last pre post f [] hr h2

theorem nullPaths_nil_entries (s : GoMap) (parent : String) (h : nullPaths s parent = []) :
    ∀ k w, (k, w) ∈ s → nullPathsValue w (joinTag parent k) = [] := by
  induction s with
  | nil => intro k w hm; simp at hm
  | cons x rest ih =>
    obtain ⟨a, b⟩ := x
    simp only [nullPaths, List.append_eq_nil] at h
    intro k w hm
    simp only [List.mem_cons, Prod.mk.injEq] at hm
    rcases hm with ⟨h1, h2⟩ | hm
    · rw [h1, h2]; exact h.1
    · exact ih h.2 k w hm

theorem leafOk_all : ∀ t : GoType, LeafOk t := by
  apply type_induction
  · intro t ht _ tag hp
    have hs : skeletonValue t = .null := by
      cases t with
      | struct fs => exact absurd rfl (ht fs)
      | _ => rfl
    rw [hs] at hp
    simp [nullPathsValue] at hp
  · intro fs ih hd tag hp
    simp only [distinctType] at hd
    simp only [skeletonValue, nullPathsValue] at hp
    simp only [leaflessType]
    rw [leafless_iff]
    intro f hf hr
    obtain ⟨_, _, _, _, hdt⟩ := distinct_split fs f hd hf hr
    exact ih f hf hdt _
      (nullPaths_nil_entries _ tag hp _ _ (skeleton_mem_of_required fs f hd hf hr))

theorem isSkelValue_skeletonValue (t : GoType) : isSkelValue (skeletonValue t) = true :=
  isSkel_of_wfSkel_aux.1 _ (wfSkelValue_skeletonValue t)

theorem present_of_nullPaths_nil (fs : List (Field GoType))
    (ih : ∀ f, f ∈ fs → SoundOk f.type) (d m : GoMap) (parent : String)
    (hd : distinct fs = true) (hm : merge (skeleton fs) d = some m)
    (hp : nullPaths m parent = []) : present fs d = true := by
  rw [present_iff]
  intro f hf hr
  obtain ⟨_, _, _, _, hdt⟩ := distinct_split fs f hd hf hr
  have hx := skeleton_mem_of_required fs f hd hf hr
  rw [nullPaths_merge _ _ _ _ hm, List.flatMap_eq_nil_iff] at hp
  have he := hp _ hx
  obtain ⟨r, hr1⟩ := mergeValue_isSome (skeletonValue f.type) (mapGet d (tagName f.tag))
    (isSkelValue_skeletonValue f.type)
  simp only [entryPaths, hr1] at he
  obtain ⟨v, hv, hpv⟩ := ih f hf hdt _ r _ hr1 he
  exact ⟨v, hv, hpv⟩

theorem soundOk_all : ∀ t : GoType, SoundOk t := by
  apply type_induction
  · intro t ht _ x r tag hm hp
    have hs : skeletonValue t = .null := by
      cases t with
      | struct fs => exact absurd rfl (ht fs)
      | _ => rfl
    rw [hs] at hm
    cases x with
    | none =>
      simp [mergeValue] at hm; subst hm
      simp [nullPathsValue] at hp
    | some y =>
      refine ⟨y, rfl, ?_⟩
      cases y with
      | null =>
        simp [mergeValue] at hm; subst hm
        simp [nullPathsValue] at hp
      | _ =>
        cases t with
        | struct fs => exact absurd rfl (ht fs)
        | _ => rfl
  · intro fs ih hd x r tag hm hp
    simp only [distinctType] at hd
    simp only [skeletonValue] at hm
    cases x with
    | none =>
      simp [mergeValue] at hm; subst hm
      simp [nullPathsValue] at hp
    | some y =>
      refine ⟨y, rfl, ?_⟩
      cases y with
      | null =>
        simp [mergeValue] at hm; subst hm
        simp only [presentValue]
        exact leafOk_all (.struct fs) (by simpa [distinctType] using hd) tag
          (by simpa [skeletonValue] using hp)
      | obj o =>
        cases hmo : merge (skeletonLoop fs []) o with
        | none => simp [mergeValue, hmo] at hm
        | some m' =>
          simp [mergeValue, hmo] at hm; subst hm
          simp only [nullPathsValue] at hp
          simp only [presentValue]
          exact present_of_nullPaths_nil fs ih o m' tag hd hmo hp
      | _ => rfl

/-- C1 as stated fails in three ways: a nested required record supplied as a
number passes although its required field is absent; a nested required record
without required fields passes when it is an explicit `null`; and a record
field shadowed by a later field of the same name is not descended into. -/
theorem check_merge_not_sound :
    (merge (skeleton [⟨"Address", "address", .struct [⟨"Zip", "zip", .basic "string"⟩]⟩])
        [("address", .num 5)] = some [("address", .num 5)] ∧
      check [("address", .num 5)] "" = none ∧
      specPresent [⟨"Address", "address", .struct [⟨"Zip", "zip", .basic "string"⟩]⟩]
        [("address", .num 5)] = false) ∧
    (merge (skeleton [⟨"Address", "address",
          .struct [⟨"Note", "note,optional", .basic "string"⟩]⟩])
        [("address", .null)] = some [("address", .obj [])] ∧
      check [("address", .obj [])] "" = none ∧
      specPresent [⟨"Address", "address",
          .struct [⟨"Note", "note,optional", .basic "string"⟩]⟩]
        [("address", .null)] = false) ∧
    (merge (skeleton [⟨"A", "x", .struct [⟨"Zip", "zip", .basic "string"⟩]⟩,
          ⟨"B", "x", .basic "string"⟩])
        [("x", .obj [])] = some [("x", .obj [])] ∧
      check [("x", .obj [])] "" = none ∧
      specPresent [⟨"A", "x", .struct [⟨"Zip", "zip", .basic "string"⟩]⟩,
          ⟨"B", "x", .basic "string"⟩]
        [("x", .obj [])] = false) := by
  refine ⟨⟨rfl, by decide, by decide⟩, ⟨rfl, by decide, by decide⟩,
    ⟨rfl, by decide, by decide⟩⟩

/-- C1, amended: for a record type in which no two required fields of the
same record share an external name, if `check` on `merge(skeleton(type), d)`
returns no error (in some iteration order), then every required field has its
key in `d`; the value is non-null, except that a nested record may be `null`
when it has no required non-record field at any depth; and wherever `d`
supplies an object for a required nested record the same holds for the
required fields of that record (below a nested record supplied as another
kind of value nothing is guaranteed). -/
theorem check_merge_sound (fs : List (Field GoType)) (d m m' : GoMap)
    (hd : distinct fs = true) (hm : merge (skeleton fs) d = some m) (hs : SameMap m m')
    (hc : check m' "" = none) : present fs d = true := by
  have h1 : nullPaths m' "" = [] := (check_eq_none_iff m' "").mp hc
  have h2 : nullPaths m "" = [] := by
    have := nullPaths_perm hs ""
    rw [h1] at this
    exact List.perm_nil.mp this
  exact present_of_nullPaths_nil fs (fun f _ => soundOk_all f.type) d m "" hd hm h2

theorem check_merge_sound_witness :
    distinct [⟨"Name", "name", .basic "string"⟩, ⟨"Age", "age,optional", .basic "int"⟩,
        ⟨"Address", "address", .struct [⟨"Zip", "zip", .basic "string"⟩]⟩] = true ∧
    merge (skeleton [⟨"Name", "name", .basic "string"⟩,
        ⟨"Age", "age,optional", .basic "int"⟩,
        ⟨"Address", "address", .struct [⟨"Zip", "zip", .basic "string"⟩]⟩])
      [("name", .str "a"), ("address", .obj [("zip", .str "1")])]
      = some [("name", .str "a"), ("address", .obj [("zip", .str "1")])] ∧
    check [("address", .obj [("zip", .str "1")]), ("name", .str "a")] "" = none ∧
    present [⟨"Name", "name", .basic "string"⟩, ⟨"Age", "age,optional", .basic "int"⟩,
        ⟨"Address", "address", .struct [⟨"Zip", "zip", .basic "string"⟩]⟩]
      [("name", .str "a"), ("address", .obj [("zip", .str "1")])] = true :=
  ⟨by decide, rfl, by decide,
    check_merge_sound _ [("name", .str "a"), ("address", .obj [("zip", .str "1")])]
      [("name", .str "a"), ("address", .obj [("zip", .str "1")])]
      [("address", .obj [("zip", .str "1")]), ("name", .str "a")]
      (by decide) rfl (SameMap.swap _ _ _) (by decide)⟩

/-! ## `merge` never panics on a skeleton (C20) -/

/-- The panic branch exists: a skeleton argument holding a string where the
document holds an object fails the assertion `value.(map[string]any)`. -/
theorem merge_panics_on_non_skeleton :
    merge [("a", .str "x")] [("a", .obj [])] = none := rfl

/-- C20: every value stored in a tree returned by `skeleton` is `nil` or a
nested skeleton map, recursively (`isSkel`); consequently, for every record
type and every document, `merge(skeleton(type), d)` returns a map: no type
assertion `value.(map[string]any)` made during the merge panics. -/
theorem merge_skeleton_never_panics (fs : List (Field GoType)) :
    isSkel (skeleton fs) = true ∧ ∀ d : GoMap, ∃ m, merge (skeleton fs) d = some m :=
  ⟨isSkel_skeleton fs, fun d => merge_isSome (skeleton fs) d (isSkel_skeleton fs)⟩

/-! ## The empty document (C18) -/

theorem isSkel_cons (k : String) (v : Val) (rest : GoMap) :
    isSkel ((k, v) :: rest) = true ↔ isSkelValue v = true ∧ isSkel rest = true := by
  simp [isSkel]

theorem mergeValue_none_of_isSkelValue (w : Val) (h : isSkelValue w = true) :
    mergeValue w none = some .null := by
  cases w <;> first | rfl | simp [isSkelValue] at h

theorem merge_empty_doc (s : GoMap) (hs : isSkel s = true) :
    merge s [] = some (s.map (fun x => (x.1, Val.null))) := by
  induction s with
  | nil => rfl
  | cons x rest ih =>
    obtain ⟨k, w⟩ := x
    rw [isSkel_cons] at hs
    rw [merge_cons_eq]
    simp [mapGet, mergeValue_none_of_isSkelValue w hs.1, ih hs.2]

theorem nullPaths_all_null (s : GoMap) (parent : String) :
    nullPaths (s.map (fun x => (x.1, Val.null))) parent
      = s.map (fun x => joinTag parent x.1) := by
  induction s with
  | nil => rfl
  | cons x rest ih =>
    obtain ⟨k, w⟩ := x
    simp [nullPaths, nullPathsValue, ih]

theorem joinTag_empty (k : String) : joinTag "" k = k := by
  simp [joinTag_eq]

/-- C18 as stated fails for a type whose top-level field is required by the
specification's rule and skipped by `skeleton`: with the tag `name,` the
skeleton is empty and `check` on the merge with the empty document succeeds. -/
theorem check_empty_document_skipped_field :
    specRequired "name," = true ∧ tagName "name," = "name" ∧
    required (⟨"Name", "name,", .basic "string"⟩ : Field GoType) = false ∧
    merge (skeleton [⟨"Name", "name,", .basic "string"⟩,
        ⟨"Age", "age,optional", .basic "int"⟩]) [] = some [] ∧
    check [] "" = none := by
  refine ⟨by decide, by decide, by decide, rfl, rfl⟩

/-- C18, amended: for every record type, `merge(skeleton(type), {})` maps every
key of the skeleton to `nil` (a nested skeleton map collapses to one `nil`);
`check` on it, in every iteration order, succeeds if and only if `skeleton`
skips every top-level field of the type (each has a tag segment `optional`,
`-` or empty), and otherwise returns a missing-field error whose path is a
single top-level key of the skeleton. -/
theorem check_empty_document (fs : List (Field GoType)) :
    ∃ m, merge (skeleton fs) [] = some m ∧
      m = (skeleton fs).map (fun x => (x.1, Val.null)) ∧
      ∀ m', SameMap m m' →
        (check m' "" = none ↔ ∀ f, f ∈ fs → required f = false) ∧
        ∀ e, check m' "" = some e →
          ∃ k, k ∈ keys (skeleton fs) ∧ e = .missingField k := by
  refine ⟨_, merge_empty_doc _ (isSkel_skeleton fs), rfl, fun m' hs => ?_⟩
  have hp : nullPaths ((skeleton fs).map (fun x => (x.1, Val.null))) "" = keys (skeleton fs) := by
    rw [nullPaths_all_null]
    simp [keys, joinTag_empty]
  have hperm := nullPaths_perm hs ""
  rw [hp] at hperm
  constructor
  · rw [check_eq_none_iff]
    constructor
    · intro h f hf
      rw [h] at hperm
      have hk : keys (skeleton fs) = [] := List.perm_nil.mp hperm
      cases hr : required f with
      | false => rfl
      | true =>
        have := mem_keys_skeleton_of_required fs f hf hr
        rw [hk] at this
        simp at this
    · intro h
      have hk : keys (skeleton fs) = [] := by
        apply List.eq_nil_iff_forall_not_mem.mpr
        intro k hk
        unfold skeleton at hk
        rw [mem_keys_skeletonLoop, mem_requiredNames] at hk
        rcases hk with hk | ⟨f, hf, hr, _⟩
        · simp [keys] at hk
        · rw [h f hf] at hr
          cases hr
      rw [hk] at hperm
      exact List.nil_perm.mp hperm
  · intro e he
    obtain ⟨p, hp', hep⟩ := check_mem_nullPaths m' "" e he
    exact ⟨p, hperm.mem_iff.mpr hp', hep⟩

/-! ## The contract of `check` (C11) -/

theorem nullAt_nil (ks : List String) : ¬ NullAt [] ks := by
  intro h
  cases h with
  | here h => simp at h
  | inside h _ => simp at h

theorem nullAt_cons (k : String) (v : Val) (rest : GoMap) (ks : List String) :
    NullAt ((k, v) :: rest) ks ↔
      (v = .null ∧ ks = [k]) ∨
      (∃ sub ks', v = .obj sub ∧ ks = k :: ks' ∧ NullAt sub ks') ∨
      NullAt rest ks := by
  constructor
  · intro h
    cases h with
    | here h =>
      simp only [List.mem_cons, Prod.mk.injEq] at h
      rcases h with ⟨h1, h2⟩ | h
      · exact Or.inl ⟨h2.symm, by rw [h1]⟩
      · exact Or.inr (Or.inr (NullAt.here h))
    | inside h hsub =>
      simp only [List.mem_cons, Prod.mk.injEq] at h
      rcases h with ⟨h1, h2⟩ | h
      · exact Or.inr (Or.inl ⟨_, _, h2.symm, by rw [h1], hsub⟩)
      · exact Or.inr (Or.inr (NullAt.inside h hsub))
  · rintro (⟨h1, h2⟩ | ⟨sub, ks', h1, h2, h3⟩ | h)
    · subst h1; subst h2
      exact NullAt.here (by simp)
    · subst h1; subst h2
      exact NullAt.inside (List.mem_cons_self _ _) h3
    · cases h with
      | here h => exact NullAt.here (by simp [h])
      | inside h hsub => exact NullAt.inside (List.mem_cons_of_mem _ h) hsub

theorem mem_nullPaths_iff_aux :
    (∀ v : Val, ∀ tag p, p ∈ nullPathsValue v tag ↔
        (v = .null ∧ p = tag) ∨ ∃ sub ks, v = .obj sub ∧ NullAt sub ks ∧ p = pathFrom tag ks) ∧
    (∀ m : GoMap, ∀ parent p, p ∈ nullPaths m parent ↔
        ∃ ks, NullAt m ks ∧ p = pathFrom parent ks) := by
  have hleaf : ∀ v : Val, (∀ m, v ≠ .obj m) → ∀ tag p, p ∈ nullPathsValue v tag ↔
      (v = .null ∧ p = tag) ∨ ∃ sub ks, v = .obj sub ∧ NullAt sub ks ∧ p = pathFrom tag ks := by
    intro v hv tag p
    cases v with
    | obj m => exact absurd rfl (hv m)
    | null => simp [nullPathsValue]
    | _ => simp [nullPathsValue]
  have hobj : ∀ m : GoMap, (∀ parent p, p ∈ nullPaths m parent ↔
        ∃ ks, NullAt m ks ∧ p = pathFrom parent ks) →
      ∀ tag p, p ∈ nullPathsValue (.obj m) tag ↔
        (Val.obj m = .null ∧ p = tag) ∨
          ∃ sub ks, Val.obj m = .obj sub ∧ NullAt sub ks ∧ p = pathFrom tag ks := by
    intro m ih tag p
    simp only [nullPathsValue, ih]
    constructor
    · rintro ⟨ks, h1, h2⟩
      exact Or.inr ⟨m, ks, rfl, h1, h2⟩
    · rintro (⟨h, _⟩ | ⟨sub, ks, h1, h2, h3⟩)
      · cases h
      · cases h1
        exact ⟨ks, h2, h3⟩
  have hnil : ∀ parent p, p ∈ nullPaths [] parent ↔
      ∃ ks, NullAt ([] : GoMap) ks ∧ p = pathFrom parent ks := by
    intro parent p
    simp only [nullPaths, List.not_mem_nil, false_iff]
    rintro ⟨ks, h, _⟩
    exact nullAt_nil ks h
  have hcons : ∀ (k : String) (v : Val) (rest : GoMap),
      (∀ tag p, p ∈ nullPathsValue v tag ↔
        (v = .null ∧ p = tag) ∨
          ∃ sub ks, v = .obj sub ∧ NullAt sub ks ∧ p = pathFrom tag ks) →
      (∀ parent p, p ∈ nullPaths rest parent ↔
        ∃ ks, NullAt rest ks ∧ p = pathFrom parent ks) →
      ∀ parent p, p ∈ nullPaths ((k, v) :: rest) parent ↔
        ∃ ks, NullAt ((k, v) :: rest) ks ∧ p = pathFrom parent ks := by
    intro k v rest ihv ihr parent p
    simp only [nullPaths, List.mem_append, ihv, ihr]
    constructor
    · rintro ((⟨h1, h2⟩ | ⟨sub, ks, h1, h2, h3⟩) | ⟨ks, h1, h2⟩)
      · exact ⟨[k], (nullAt_cons _ _ _ _).mpr (Or.inl ⟨h1, rfl⟩), by simp [pathFrom, h2]⟩
      · exact ⟨k :: ks, (nullAt_cons _ _ _ _).mpr (Or.inr (Or.inl ⟨sub, ks, h1, rfl, h2⟩)),
          by simp [pathFrom, h3]⟩
      · exact ⟨ks, (nullAt_cons _ _ _ _).mpr (Or.inr (Or.inr h1)), h2⟩
    · rintro ⟨ks, h1, h2⟩
      rcases (nullAt_cons _ _ _ _).mp h1 with ⟨h3, h4⟩ | ⟨sub, ks', h3, h4, h5⟩ | h3
      · exact Or.inl (Or.inl ⟨h3, by simp [h2, h4, pathFrom]⟩)
      · exact Or.inl (Or.inr ⟨sub, ks', h3, h5, by simp [h2, h4, pathFrom]⟩)
      · exact Or.inr ⟨ks, h3, h2⟩
  exact ⟨val_rec_value hleaf hobj hnil hcons, val_rec_map hleaf hobj hnil hcons⟩

/-- The paths collected by `nullPaths` are the paths of the key chains that
lead to a `nil`. -/
theorem mem_nullPaths_iff (m : GoMap) (parent p : String) :
    p ∈ nullPaths m parent ↔ ∃ ks, NullAt m ks ∧ p = pathFrom parent ks :=
  mem_nullPaths_iff_aux.2 m parent p

theorem nullAt_head_mem {m : GoMap} {ks : List String} (h : NullAt m ks) :
    ∃ k ks', ks = k :: ks' ∧ k ∈ keys m := by
  cases h with
  | here h => exact ⟨_, [], rfl, List.mem_map.mpr ⟨_, h, rfl⟩⟩
  | inside h _ => exact ⟨_, _, rfl, List.mem_map.mpr ⟨_, h, rfl⟩⟩

theorem pathFrom_eq_dotted (parent k : String) (ks : List String)
    (h : parent = "" → k ≠ "") : pathFrom parent (k :: ks) = dotted parent (k :: ks) := by
  unfold dotted
  by_cases hp : parent = ""
  · subst hp
    simp only [if_true, pathFrom, List.foldl_cons, joinTag_empty, String.intercalate]
    exact foldl_joinTag_eq_go ks k (h rfl)
  · simp only [hp, if_false, String.intercalate]
    exact foldl_joinTag_eq_go (k :: ks) parent hp

theorem keys_merge (s : GoMap) : ∀ (d m : GoMap), merge s d = some m → keys m = keys s := by
  induction s with
  | nil =>
    intro d m h
    simp [merge] at h
    subst h
    rfl
  | cons x rest ih =>
    intro d m h
    obtain ⟨k, w⟩ := x
    rw [merge_cons_eq] at h
    cases hr : mergeValue w (mapGet d k) with
    | none => simp [hr] at h
    | some r =>
      cases hm : merge rest d with
      | none => simp [hr, hm] at h
      | some mr =>
        simp [hr, hm] at h
        subst h
        have := ih d mr hm
        simp only [keys] at this
        simp [keys, this]

theorem keys_ne_empty_of_wfSkel (s : GoMap) (h : wfSkel s = true) :
    ∀ k, k ∈ keys s → k ≠ "" := by
  induction s with
  | nil => intro k hk; simp [keys] at hk
  | cons x rest ih =>
    obtain ⟨a, v⟩ := x
    simp only [wfSkel, Bool.and_eq_true, decide_eq_true_eq] at h
    intro k hk
    simp only [keys, List.map_cons, List.mem_cons] at hk
    rcases hk with hk | hk
    · rw [hk]; exact h.1.1.1
    · exact ih h.2 k hk

theorem isSkel_of_wfSkel (s : GoMap) (h : wfSkel s = true) : isSkel s = true :=
  isSkel_of_wfSkel_aux.2 s h

/-- In a merged tree every chain to a `nil` is reported under the dotted
path. -/
theorem nullAt_pathFrom_merged (s d m : GoMap) (parent : String) (ks : List String)
    (hs : wfSkel s = true) (hm : merge s d = some m) (hn : NullAt m ks) :
    pathFrom parent ks = dotted parent ks := by
  obtain ⟨k, ks', hks, hk⟩ := nullAt_head_mem hn
  subst hks
  apply pathFrom_eq_dotted
  intro _
  rw [keys_merge s d m hm] at hk
  exact keys_ne_empty_of_wfSkel s hs k hk

/-- Outside merged trees, an empty key at the top level makes `check` restart
the path: the chain `["", "a"]` is reported as `a`, not as `.a`.  Keys of a
skeleton are never empty, so merged trees are not affected. -/
theorem check_empty_key_restarts_path :
    check [("", .obj [("a", .null)])] "" = some (.missingField "a") ∧
    dotted "" ["", "a"] = ".a" := by
  constructor <;> decide

/-- C11: for every merged tree `m` (the merge of a skeleton with a document),
every enumeration `m'` of it and every path prefix `parent`, `check` returns
success if and only if no `nil` is reachable in `m` through nested maps; an
error it returns is the missing-field error of one path, the dot-joined chain
`parent.k1.….kn` (no leading dot when `parent` is empty) of keys leading to a
`nil` of `m`; an entry whose value is neither `nil` nor a map is skipped. -/
theorem check_contract (s d m m' : GoMap) (parent : String)
    (hs : wfSkel s = true) (hm : merge s d = some m) (hp : SameMap m m') :
    (check m' parent = none ↔ ¬ ∃ ks, NullAt m ks) ∧
    (∀ e, check m' parent = some e →
      ∃ ks, NullAt m ks ∧ e = .missingField (dotted parent ks)) ∧
    (∀ k v rest, v ≠ .null → (∀ o, v ≠ .obj o) →
      check ((k, v) :: rest) parent = check rest parent) := by
  have hperm := nullPaths_perm hp parent
  refine ⟨?_, ?_, ?_⟩
  · rw [check_eq_none_iff]
    constructor
    · rintro h ⟨ks, hks⟩
      have : pathFrom parent ks ∈ nullPaths m parent :=
        (mem_nullPaths_iff m parent _).mpr ⟨ks, hks, rfl⟩
      rw [hperm.mem_iff, h] at this
      simp at this
    · intro h
      apply List.eq_nil_iff_forall_not_mem.mpr
      intro p hpm
      rw [← hperm.mem_iff, mem_nullPaths_iff] at hpm
      obtain ⟨ks, hks, _⟩ := hpm
      exact h ⟨ks, hks⟩
  · intro e he
    obtain ⟨p, hpm, hep⟩ := check_some_mem parent e hp he
    obtain ⟨ks, hks, hpk⟩ := (mem_nullPaths_iff m parent p).mp hpm
    exact ⟨ks, hks, by rw [hep, hpk, nullAt_pathFrom_merged s d m parent ks hs hm hks]⟩
  · intro k v rest hv ho
    cases v with
    | null => exact absurd rfl hv
    | obj o => exact absurd rfl (ho o)
    | _ => simp [check, checkValue]

theorem check_contract_witness :
    wfSkel [("name", .null), ("address", .obj [("zip", .null)])] = true ∧
    merge [("name", .null), ("address", .obj [("zip", .null)])]
        [("name", .str "a"), ("address", .obj [])]
      = some [("name", .str "a"), ("address", .obj [("zip", .null)])] ∧
    check [("address", .obj [("zip", .null)]), ("name", .str "a")] "user"
      = some (.missingField "user.address.zip") ∧
    dotted "user" ["address", "zip"] = "user.address.zip" ∧
    ((check [("address", .obj [("zip", .null)]), ("name", .str "a")] "user" = none ↔
        ¬ ∃ ks, NullAt [("name", .str "a"), ("address", .obj [("zip", .null)])] ks) ∧
      (∀ e, check [("address", .obj [("zip", .null)]), ("name", .str "a")] "user" = some e →
        ∃ ks, NullAt [("name", .str "a"), ("address", .obj [("zip", .null)])] ks ∧
          e = .missingField (dotted "user" ks)) ∧
      (∀ k v rest, v ≠ .null → (∀ o, v ≠ .obj o) →
        check ((k, v) :: rest) "user" = check rest "user")) :=
  ⟨by decide, rfl, by decide, by decide,
    check_contract [("name", .null), ("address", .obj [("zip", .null)])]
      [("name", .str "a"), ("address", .obj [])]
      [("name", .str "a"), ("address", .obj [("zip", .null)])]
      [("address", .obj [("zip", .null)]), ("name", .str "a")] "user"
      (by decide) rfl (SameMap.swap _ _ _)⟩

/-! ## An object under a leaf slot (C19) -/

/-- C19: when the skeleton holds `nil` at `k` and the document holds an object
at `k`, whatever the object contains, the merged value at `k` is the empty
map; no chain of keys to a `nil` of the merged tree starts with `k`, so
whatever `check` reports, in any iteration order, is the path of a chain
that does not start with `k`. -/
theorem merge_object_under_leaf (s d o : GoMap) (k : String)
    (hs : wfSkel s = true) (hk : mapGet s k = some .null)
    (hd : mapGet d k = some (.obj o)) :
    ∃ m, merge s d = some m ∧ mapGet m k = some (.obj []) ∧
      (∀ ks, ¬ NullAt m (k :: ks)) ∧
      ∀ m' e, SameMap m m' → check m' "" = some e →
        ∃ ks, NullAt m ks ∧ ks.head? ≠ some k ∧
          e = .missingField (String.intercalate "." ks) := by
  obtain ⟨m, hm⟩ := merge_isSome s d (isSkel_of_wfSkel s hs)
  have hget : mapGet m k = some (.obj []) := by
    rw [mapGet_merge s d m k hm, hk, hd]
    rfl
  have hnodup : (keys m).Nodup := by
    rw [keys_merge s d m hm]
    exact nodup_keys_of_wfSkel s hs
  have hval : ∀ v, (k, v) ∈ m → v = .obj [] := by
    intro v hv
    have := mapGet_of_mem_nodup m k v hnodup hv
    rw [hget] at this
    exact (Option.some.inj this).symm
  have hno : ∀ ks, ¬ NullAt m (k :: ks) := by
    intro ks h
    cases h with
    | here h => cases hval _ h
    | inside h hsub =>
      cases hval _ h
      exact nullAt_nil _ hsub
  refine ⟨m, hm, hget, hno, fun m' e hsm he => ?_⟩
  obtain ⟨p, hpm, hep⟩ := check_some_mem "" e hsm he
  obtain ⟨ks, hks, hpk⟩ := (mem_nullPaths_iff m "" p).mp hpm
  refine ⟨ks, hks, ?_, ?_⟩
  · intro hh
    cases ks with
    | nil => simp at hh
    | cons a l =>
      simp only [List.head?_cons, Option.some.injEq] at hh
      subst hh
      exact hno l hks
  · rw [hep, hpk, nullAt_pathFrom_merged s d m "" ks hs hm hks]
    simp [dotted]

theorem merge_object_under_leaf_witness :
    wfSkel [("meta", .null), ("name", .null)] = true ∧
    mapGet [("meta", .null), ("name", .null)] "meta" = some .null ∧
    mapGet [("meta", .obj [("a", .null)])] "meta" = some (.obj [("a", .null)]) ∧
    ∃ m, merge [("meta", .null), ("name", .null)] [("meta", .obj [("a", .null)])] = some m ∧
      mapGet m "meta" = some (.obj []) ∧
      (∀ ks, ¬ NullAt m ("meta" :: ks)) ∧
      ∀ m' e, SameMap m m' → check m' "" = some e →
        ∃ ks, NullAt m ks ∧ ks.head? ≠ some "meta" ∧
          e = .missingField (String.intercalate "." ks) :=
  ⟨by decide, rfl, rfl,
    merge_object_under_leaf [("meta", .null), ("name", .null)]
      [("meta", .obj [("a", .null)])] [("a", .null)] "meta" (by decide) rfl rfl⟩

/-! ## The entry point `JSON` (C12, C13, C14) -/

theorem check_error_is_missingField (m : GoMap) (parent : String) (e : ParseError)
    (h : check m parent = some e) : ∃ p, e = .missingField p := by
  obtain ⟨p, _, hp⟩ := check_mem_nullPaths m parent e h
  exact ⟨p, hp⟩

theorem JSON_struct_eq {α : Type} (lower : Char → Char) (fs : List (Field GoType))
    (dec : Decodes α) (externals : List α) (iter : GoMap → GoMap) :
    JSON lower (.struct fs) dec externals iter =
      match dec.generic with
      | .error msg => some (none, some (.invalidJSON msg))
      | .ok parsed =>
        match dec.typed externals.head? with
        | (output, some msg) =>
          some (output, some (.typeMismatch (formatErrTypeMismatch lower msg)))
        | (output, none) =>
          match merge (skeleton fs) parsed with
          | none => none
          | some merged =>
            match check (iter merged) "" with
            | some err => some (output, some err)
            | none => some (output, none) := rfl

/-- For a target type that is neither a struct nor an interface type, `JSON`
returns a type-constraint error and a nil output, whatever the decodes of the
input are. -/
theorem JSON_rejects_non_struct {α : Type} (lower : Char → Char) (t : GoType)
    (dec : Decodes α) (externals : List α) (iter : GoMap → GoMap)
    (hs : ∀ fs, t ≠ .struct fs) (hi : t ≠ .basic "interface") :
    ∃ msg, JSON lower t dec externals iter = some (none, some (.typeConstraint msg)) := by
  cases t with
  | struct fs => exact absurd rfl (hs fs)
  | basic kind =>
    have hk : kind ≠ "interface" := fun e => hi (by rw [e])
    exact ⟨"generic must be a struct not " ++ "'" ++ kind ++ "'",
      by simp [JSON, typeOfZero, hk, kindString]⟩
  | _ => exact ⟨_, rfl⟩

/-- C13, the failing case: for an interface target type such as `any`, the
zero value is the nil interface, `reflect.TypeOf` returns nil and the call of
`Kind()` panics, so `JSON` returns neither an error nor an output. -/
theorem JSON_interface_panics {α : Type} (lower : Char → Char) (dec : Decodes α)
    (externals : List α) (iter : GoMap → GoMap) :
    JSON lower (.basic "interface") dec externals iter = none := rfl

/-- C12 as stated fails: with a caller-supplied instance, the empty object as
input and a required field, `JSON` returns the missing-field error together
with the caller's instance; with a failing typed decode it returns the
type-mismatch error together with it. -/
theorem JSON_output_with_error_not_nil :
    JSON Char.toLower (.struct [⟨"Name", "name", .basic "string"⟩])
        { generic := .ok [], typed := fun out => (out, none) } ["instance"] id
      = some (some "instance", some (.missingField "name")) ∧
    JSON Char.toLower (.struct [⟨"Name", "name", .basic "string"⟩])
        { generic := .ok [("name", .num 1)],
          typed := fun out => (out,
            some "json: cannot unmarshal number into Go struct field T.name of type string") }
        ["instance"] id
      = some (some "instance",
          some (.typeMismatch "cannot parse 'number' into <name>, expected 'string'.")) := by
  constructor <;> decide

/-- C12, amended: whenever `JSON` returns a type-constraint or invalid-JSON
error the output returned alongside is nil; whenever it returns a
type-mismatch or missing-field error the output returned alongside is the
pointer that the typed decode left in `output`, the decode having started
from the caller-supplied instance when one was given and from nil otherwise
(a decoded or partially populated instance in general, nil when the decode
left the pointer nil). -/
theorem JSON_output_with_error {α : Type} (lower : Char → Char) (t : GoType)
    (dec : Decodes α) (externals : List α) (iter : GoMap → GoMap)
    (out : Option α) (e : ParseError)
    (h : JSON lower t dec externals iter = some (out, some e)) :
    ((∃ msg, e = .typeConstraint msg) ∨ (∃ msg, e = .invalidJSON msg) → out = none) ∧
    ((∃ msg, e = .typeMismatch msg) ∨ (∃ p, e = .missingField p) →
      out = (dec.typed externals.head?).1) := by
  by_cases hs : ∃ fs, t = .struct fs
  · obtain ⟨fs, rfl⟩ := hs
    rw [JSON_struct_eq] at h
    cases hg : dec.generic with
    | error msg =>
      simp only [hg] at h
      cases h
      exact ⟨fun _ => rfl, by rintro (⟨_, h⟩ | ⟨_, h⟩) <;> cases h⟩
    | ok parsed =>
      simp only [hg] at h
      cases ht : dec.typed externals.head? with
      | mk o err =>
        simp only [ht] at h
        cases err with
        | some msg =>
          simp only at h
          cases h
          exact ⟨(by rintro (⟨_, h⟩ | ⟨_, h⟩) <;> cases h), fun _ => rfl⟩
        | none =>
          simp only at h
          cases hm : merge (skeleton fs) parsed with
          | none => simp [hm] at h
          | some m =>
            simp only [hm] at h
            cases hc : check (iter m) "" with
            | none => simp [hc] at h
            | some err =>
              simp only [hc] at h
              cases h
              obtain ⟨p, hp⟩ := check_error_is_missingField _ _ _ hc
              subst hp
              exact ⟨(by rintro (⟨_, h⟩ | ⟨_, h⟩) <;> cases h), fun _ => rfl⟩
  · by_cases hi : t = .basic "interface"
    · subst hi
      rw [JSON_interface_panics] at h
      cases h
    · obtain ⟨msg, hmsg⟩ := JSON_rejects_non_struct lower t dec externals iter
        (fun fs e => hs ⟨fs, e⟩) hi
      rw [hmsg] at h
      cases h
      exact ⟨fun _ => rfl, by rintro (⟨_, h⟩ | ⟨_, h⟩) <;> cases h⟩

theorem JSON_output_with_error_witness :
    (JSON Char.toLower (.struct [⟨"Name", "name", .basic "string"⟩])
        { generic := .ok [], typed := fun out => (out, none) } ["instance"] id
      = some (some "instance", some (.missingField "name")) ∧
      ((∃ msg, ParseError.missingField "name" = .typeMismatch msg) ∨
        (∃ p, ParseError.missingField "name" = .missingField p) →
        some "instance" = ((["instance"].head?, (none : Option String))).1)) ∧
    (JSON Char.toLower (.struct [⟨"Name", "name", .basic "string"⟩])
        { generic := .ok [], typed := fun _ => (none, none) } ["instance"] id
      = some (none, some (.missingField "name")) ∧
      ((∃ msg, ParseError.missingField "name" = .typeMismatch msg) ∨
        (∃ p, ParseError.missingField "name" = .missingField p) →
        (none : Option String) = (((none : Option String), (none : Option String))).1)) ∧
    (JSON Char.toLower (.struct [⟨"Name", "name", .basic "string"⟩])
        { generic := .error "unexpected end of JSON input", typed := fun out => (out, none) }
        ["instance"] id
      = some (none, some (.invalidJSON "unexpected end of JSON input")) ∧
      ((∃ msg, ParseError.invalidJSON "unexpected end of JSON input" = .typeConstraint msg) ∨
        (∃ msg, ParseError.invalidJSON "unexpected end of JSON input" = .invalidJSON msg) →
        (none : Option String) = none)) :=
  ⟨⟨rfl, (JSON_output_with_error Char.toLower
      (.struct [⟨"Name", "name", .basic "string"⟩])
      { generic := .ok [], typed := fun out => (out, none) } ["instance"] id
      (some "instance") (.missingField "name") rfl).2⟩,
    ⟨rfl, (JSON_output_with_error Char.toLower
      (.struct [⟨"Name", "name", .basic "string"⟩])
      { generic := .ok [], typed := fun _ => (none, none) } ["instance"] id
      none (.missingField "name") rfl).2⟩,
    ⟨rfl, (JSON_output_with_error Char.toLower
      (.struct [⟨"Name", "name", .basic "string"⟩])
      { generic := .error "unexpected end of JSON input", typed := fun out => (out, none) }
      ["instance"] id none (.invalidJSON "unexpected end of JSON input") rfl).1⟩⟩

/-- C14: for a record target type, with the two decodes taken as given
results: `JSON` returns the invalid-JSON error whenever the generic decode
fails; the type-mismatch error whenever the generic decode succeeds and the
typed decode fails; the result of `check(merge(skeleton, parsed))`, with the
typed instance, when both decodes succeed (the merge always being produced);
and it returns a nil error exactly when both decodes succeed and the check
succeeds. -/
theorem JSON_stage_order {α : Type} (lower : Char → Char) (fs : List (Field GoType))
    (dec : Decodes α) (externals : List α) (iter : GoMap → GoMap) :
    (∀ msg, dec.generic = .error msg →
      JSON lower (.struct fs) dec externals iter = some (none, some (.invalidJSON msg))) ∧
    (∀ parsed msg, dec.generic = .ok parsed → (dec.typed externals.head?).2 = some msg →
      JSON lower (.struct fs) dec externals iter
        = some ((dec.typed externals.head?).1,
            some (.typeMismatch (formatErrTypeMismatch lower msg)))) ∧
    (∀ parsed, dec.generic = .ok parsed → (dec.typed externals.head?).2 = none →
      ∃ m, merge (skeleton fs) parsed = some m ∧
        JSON lower (.struct fs) dec externals iter
          = some ((dec.typed externals.head?).1, check (iter m) "")) ∧
    (∀ out, JSON lower (.struct fs) dec externals iter = some (out, none) ↔
      ∃ parsed m, dec.generic = .ok parsed ∧ dec.typed externals.head? = (out, none) ∧
        merge (skeleton fs) parsed = some m ∧ check (iter m) "" = none) := by
  rw [JSON_struct_eq]
  refine ⟨?_, ?_, ?_, ?_⟩
  · intro msg hg
    simp [hg]
  · intro parsed msg hg ht
    cases hd : dec.typed externals.head? with
    | mk o err =>
      rw [hd] at ht
      simp only at ht
      subst ht
      simp [hg]
  · intro parsed hg ht
    obtain ⟨m, hm⟩ := merge_isSome (skeleton fs) parsed (isSkel_skeleton fs)
    refine ⟨m, hm, ?_⟩
    cases hd : dec.typed externals.head? with
    | mk o err =>
      rw [hd] at ht
      simp only at ht
      subst ht
      simp only [hg, hm]
      cases check (iter m) "" <;> rfl
  · intro out
    cases hg : dec.generic with
    | error msg => simp
    | ok parsed =>
      obtain ⟨m, hm⟩ := merge_isSome (skeleton fs) parsed (isSkel_skeleton fs)
      cases hd : dec.typed externals.head? with
      | mk o err =>
        cases err with
        | some msg => simp
        | none =>
          simp only [hm]
          cases hc : check (iter m) "" with
          | some e =>
            constructor
            · intro h
              cases h
            · rintro ⟨p, m2, hp, _, hm2, hc2⟩
              cases hp
              rw [hm] at hm2
              cases hm2
              rw [hc] at hc2
              cases hc2
          | none =>
            constructor
            · intro h
              cases h
              exact ⟨parsed, m, rfl, rfl, hm, hc⟩
            · rintro ⟨p, m2, _, ho, _, _⟩
              cases ho
              rfl

/-! ## The matcher of `formatErrTypeMismatch` -/

theorem stripLit_append (lit r : List Char) : stripLit lit (lit ++ r) = some r := by
  induction lit with
  | nil => cases r <;> rfl
  | cons a lit ih => simp [stripLit, ih]

theorem stripLit_eq_some (lit : List Char) :
    ∀ (s r : List Char), stripLit lit s = some r → s = lit ++ r := by
  induction lit with
  | nil =>
    intro s r h
    cases s <;> simp [stripLit] at h <;> simp [h]
  | cons a lit ih =>
    intro s r h
    cases s with
    | nil => simp [stripLit] at h
    | cons b s =>
      by_cases e : a = b
      · simp only [stripLit, e, if_true] at h
        simp [e, ih s r h]
      · simp [stripLit, e] at h

theorem stripLit_none_of_not_mem (lit s : List Char) (x : Char) (hx : x ∈ lit)
    (hs : x ∉ s) : stripLit lit s = none := by
  cases h : stripLit lit s with
  | none => rfl
  | some r =>
    exfalso
    apply hs
    rw [stripLit_eq_some lit s r h]
    exact List.mem_append_left _ hx

theorem takeWhile_append_stop (p : Char → Bool) (r t : List Char) (x : Char)
    (hr : ∀ c, c ∈ r → p c = true) (hx : p x = false) :
    (r ++ x :: t).takeWhile p = r ∧ (r ++ x :: t).dropWhile p = x :: t := by
  induction r with
  | nil => simp [List.takeWhile, List.dropWhile, hx]
  | cons c r ih =>
    have hc : p c = true := hr c (by simp)
    have := ih (fun c' hc' => hr c' (by simp [hc']))
    simp [List.takeWhile, List.dropWhile, hc, this]

theorem splitLast_eq_some (sep : List Char) :
    ∀ (s a b : List Char), splitLast sep s = some (a, b) → s = a ++ sep ++ b := by
  intro s
  induction s with
  | nil => intro a b h; simp [splitLast] at h
  | cons c cs ih =>
    intro a b h
    simp only [splitLast] at h
    cases hr : splitLast sep cs with
    | some ab =>
      obtain ⟨a', b'⟩ := ab
      simp only [hr, Option.some.injEq, Prod.mk.injEq] at h
      rw [ih a' b' hr, ← h.1, ← h.2]
      simp
    | none =>
      simp only [hr] at h
      cases hs : stripLit sep (c :: cs) with
      | none => simp [hs] at h
      | some r =>
        simp only [hs, Option.map_some', Option.some.injEq, Prod.mk.injEq] at h
        rw [stripLit_eq_some sep _ r hs, ← h.1, ← h.2]
        simp

theorem litOfType_eq : litOfType = [' ', 'o', 'f', ' ', 't', 'y', 'p', 'e', ' '] := rfl

theorem not_space_of_isSpaceChar {c : Char} (h : isSpaceChar c = false) :
    c ≠ ' ' ∧ c ≠ '\n' := by
  constructor <;> (intro e; subst e; revert h; decide)

theorem splitLast_none_of_no_space (e : List Char) (he : ∀ c, c ∈ e → c ≠ ' ') :
    splitLast litOfType e = none := by
  induction e with
  | nil => rfl
  | cons c cs ih =>
    have hc : c ≠ ' ' := he c (by simp)
    have hi := ih (fun c' hc' => he c' (by simp [hc']))
    simp only [splitLast, hi]
    simp [litOfType_eq, stripLit, Ne.symm hc]

theorem splitLast_literal (e : List Char) (he : ∀ c, c ∈ e → c ≠ ' ') :
    splitLast litOfType (litOfType ++ e) = some ([], e) := by
  have h0 := splitLast_none_of_no_space e he
  have h1 : stripLit ['o', 'f', ' ', 't', 'y', 'p', 'e', ' '] e = none :=
    stripLit_none_of_not_mem _ e ' ' (by simp) (fun h => he ' ' h rfl)
  have h2 : stripLit litOfType (litOfType ++ e) = some e := stripLit_append _ _
  rw [litOfType_eq] at h0 h2 ⊢
  simp only [List.cons_append, List.nil_append] at h2 ⊢
  simp [splitLast, h0, h1, h2, stripLit]

theorem splitLast_shape (f e : List Char) (he : ∀ c, c ∈ e → c ≠ ' ') :
    splitLast litOfType (f ++ (litOfType ++ e)) = some (f, e) := by
  induction f with
  | nil => exact splitLast_literal e he
  | cons c f ih => simp [splitLast, ih]

theorem litInto_head : ∃ t, litInto = ' ' :: t := ⟨_, rfl⟩

theorem matchHere_shape (r s f e : List Char)
    (hr : r ≠ [] ∧ ∀ c, c ∈ r → isWordChar c = true)
    (hs : ∀ c, c ∈ s → c ≠ '.' ∧ isSpaceChar c = false)
    (hf : f ≠ [] ∧ ∀ c, c ∈ f → isSpaceChar c = false)
    (he : ∀ c, c ∈ e → isSpaceChar c = false) :
    matchHere (litCannot ++ (r ++ (litInto ++ (s ++ '.' :: (f ++ (litOfType ++ e))))))
      = some (r, f, e) := by
  obtain ⟨t, ht⟩ := litInto_head
  have h1 := stripLit_append litCannot (r ++ (litInto ++ (s ++ '.' :: (f ++ (litOfType ++ e)))))
  have h2 := takeWhile_append_stop isWordChar r (t ++ (s ++ '.' :: (f ++ (litOfType ++ e)))) ' '
    hr.2 (by decide)
  have h3 := stripLit_append litInto (s ++ '.' :: (f ++ (litOfType ++ e)))
  have h4 := takeWhile_append_stop (fun c => c != '.' && !isSpaceChar c) s
    (f ++ (litOfType ++ e)) '.' (by
      intro c hc
      obtain ⟨h, h'⟩ := hs c hc
      simp [h, h']) (by decide)
  have h5 : (f ++ (litOfType ++ e)).contains '\n' = false := by
    simp only [List.contains_eq_any_beq, List.any_eq_false, beq_iff_eq, List.mem_append]
    rintro c (hc | hc | hc) hcn
    · exact (not_space_of_isSpaceChar (hf.2 c hc)).2 hcn.symm
    · subst hcn
      revert hc
      decide
    · exact (not_space_of_isSpaceChar (he c hc)).2 hcn.symm
  have h6 := splitLast_shape f e (fun c hc => (not_space_of_isSpaceChar (he c hc)).1)
  have hcons : litInto ++ (s ++ '.' :: (f ++ (litOfType ++ e)))
      = ' ' :: (t ++ (s ++ '.' :: (f ++ (litOfType ++ e)))) := by
    rw [ht]; rfl
  unfold matchHere
  rw [h1]
  simp only [hcons, h2.1, h2.2]
  rw [← hcons, h3]
  simp only [h4.2, h5, h6, hr.1, hf.1, if_false, and_self, if_true]

/-- When the text `cannot unmarshal ` of the shape is its first occurrence in
the message, the leftmost match starts there. -/
theorem findSubmatch_first (body : List Char) (res : List Char × List Char × List Char)
    (hb : matchHere (litCannot ++ body) = some res) :
    ∀ (t a : List Char),
      (∀ x y, a ++ t ++ litCannot = x ++ litCannot ++ y → y = []) →
      findSubmatch (t ++ (litCannot ++ body)) = some res := by
  intro t
  induction t with
  | nil =>
    intro a _
    have hne : ∃ c cs, litCannot ++ body = c :: cs := ⟨_, _, rfl⟩
    obtain ⟨c, cs, hc⟩ := hne
    simp only [List.nil_append]
    rw [hc] at hb ⊢
    simp [findSubmatch, hb]
  | cons c t ih =>
    intro a hfirst
    have hnone : matchHere (c :: t ++ (litCannot ++ body)) = none := by
      unfold matchHere
      cases hsl : stripLit litCannot (c :: t ++ (litCannot ++ body)) with
      | none => rfl
      | some rest =>
        exfalso
        have heq := stripLit_eq_some _ _ _ hsl
        have hlen := congrArg List.length heq
        rcases List.append_eq_append_iff.mp heq with ⟨u, hu1, hu2⟩ | ⟨u, hu1, hu2⟩
        · rcases List.append_eq_append_iff.mp hu2 with ⟨v, hv1, hv2⟩ | ⟨v, hv1, hv2⟩
          · have h1 := congrArg List.length hu1
            have h2 := congrArg List.length hv1
            simp only [List.length_append, List.length_cons] at h1 h2
            omega
          · have hcv : c :: t ++ litCannot = litCannot ++ v := by
              conv_lhs => rw [hv1]
              conv_rhs => rw [hu1]
              simp
            have hy := hfirst a v (by
              rw [List.append_assoc, hcv, List.append_assoc])
            subst hy
            have h1 := congrArg List.length hu1
            have h2 := congrArg List.length hv1
            simp only [List.length_append, List.length_cons, List.length_nil] at h1 h2
            omega
        · have hy := hfirst a (u ++ litCannot) (by
            rw [hu1]
            simp)
          have : litCannot = [] := (List.append_eq_nil.mp hy).2
          cases this
    have hstep := ih (a ++ [c]) (by
      intro x y h
      apply hfirst x y
      rw [← h]
      simp)
    simp only [List.cons_append] at hnone ⊢
    simp [findSubmatch, hnone, hstep]

theorem matchHere_eq_some_shape (s r f e : List Char) (h : matchHere s = some (r, f, e)) :
    ∃ b c, s = litCannot ++ b ++ litInto ++ c ++ litOfType ++ e := by
  unfold matchHere at h
  cases h1 : stripLit litCannot s with
  | none => simp [h1] at h
  | some s1 =>
    simp only [h1] at h
    split at h
    · cases h
    · cases h3 : stripLit litInto (s1.dropWhile isWordChar) with
      | none => simp [h3] at h
      | some s3 =>
        simp only [h3] at h
        cases h4 : s3.dropWhile (fun c => c != '.' && !isSpaceChar c) with
        | nil => simp [h4] at h
        | cons c s5 =>
          simp only [h4] at h
          split at h
          · cases h6 : splitLast litOfType s5 with
            | none => simp [h6] at h
            | some fe =>
              obtain ⟨f', e'⟩ := fe
              simp only [h6] at h
              split at h
              · cases h
              · simp only [Option.some.injEq, Prod.mk.injEq] at h
                obtain ⟨_, hf, he⟩ := h
                subst hf; subst he
                refine ⟨s1.takeWhile isWordChar,
                  s3.takeWhile (fun c => c != '.' && !isSpaceChar c) ++ c :: f', ?_⟩
                have e1 := stripLit_eq_some _ _ _ h1
                have e3 := stripLit_eq_some _ _ _ h3
                have e6 := splitLast_eq_some _ _ _ _ h6
                have e2 := (List.takeWhile_append_dropWhile isWordChar s1).symm
                have e4 := (List.takeWhile_append_dropWhile
                  (fun c => c != '.' && !isSpaceChar c) s3).symm
                rw [h4, e6] at e4
                rw [e3] at e2
                rw [e1]
                conv_lhs => rw [e2]
                conv_lhs => rw [e4]
                simp
          · cases h

theorem findSubmatch_eq_some_shape (s r f e : List Char)
    (h : findSubmatch s = some (r, f, e)) :
    ∃ a b c d, s = a ++ litCannot ++ b ++ litInto ++ c ++ litOfType ++ d := by
  induction s with
  | nil =>
    simp only [findSubmatch] at h
    obtain ⟨b, c, hbc⟩ := matchHere_eq_some_shape _ _ _ _ h
    exact ⟨[], b, c, e, by simpa using hbc⟩
  | cons x xs ih =>
    simp only [findSubmatch] at h
    cases hm : matchHere (x :: xs) with
    | some res =>
      simp only [hm, Option.some.injEq] at h
      subst h
      obtain ⟨b, c, hbc⟩ := matchHere_eq_some_shape _ _ _ _ hm
      exact ⟨[], b, c, e, by simpa using hbc⟩
    | none =>
      simp only [hm] at h
      obtain ⟨a, b, c, d, habcd⟩ := ih h
      exact ⟨x :: a, b, c, d, by simp [habcd]⟩

/-! ## The normalizer `formatErrTypeMismatch` (C15, C16, C17) -/

/-- C15, the failing case: the whole field name is lower-cased, not only its
first character.  For the field `firstName` the code emits `firstname`, where
the first-letter rule of the claim (and of the comment `first letter to
lowercase` in the source) gives `firstName`. -/
theorem formatErrTypeMismatch_lowers_every_character :
    formatErrTypeMismatch Char.toLower
        "json: cannot unmarshal string into Go struct field User.firstName of type int"
      = "cannot parse 'string' into <firstname>, expected 'int'." ∧
    String.mk (lowerFirst Char.toLower "firstName".data) = "firstName" := by
  constructor <;> decide

/-- C16 as stated fails when `cannot unmarshal ` already occurs in the part of
the message before the shape: the leftmost match starts there, and the greedy
`(.+)` runs up to the last ` of type `, so the result names `a` and a long
field text instead of `string` and `name`. -/
theorem formatErrTypeMismatch_earlier_match :
    formatErrTypeMismatch Char.toLower
        ("cannot unmarshal a into Go struct field X.y of type z: json: " ++
          "cannot unmarshal string into Go struct field User.name of type int")
      = "cannot parse 'a' into <y of type z: json: " ++
          "cannot unmarshal string into go struct field user.name>, expected 'int'." ∧
    formatErrTypeMismatch Char.toLower
        ("cannot unmarshal a into Go struct field X.y of type z: json: " ++
          "cannot unmarshal string into Go struct field User.name of type int")
      ≠ "cannot parse 'string' into <name>, expected 'int'." := by
  constructor <;> decide

/-- C16, amended: for a raw message of the shape
`… cannot unmarshal R into Go struct field S.F of type E` in which the text
`cannot unmarshal ` does not occur before the place shown (`R` a word, `S`
without dots or white space, `F` and `E` without white space), the result is
exactly `cannot parse 'R' into <N>, expected 'X'.` where `N` is the emitted
field name (`F` passed through `strings.ToLower`) and `X` is `object` when
`E` is `map` or contains a dot, and `E` otherwise; the struct name `S` and a
dotted `E` do not enter the result. -/
theorem formatErrTypeMismatch_shape (lower : Char → Char) (pre r s f e : List Char)
    (hfirst : ∀ x y, pre ++ litCannot = x ++ litCannot ++ y → y = [])
    (hr : r ≠ [] ∧ ∀ c, c ∈ r → isWordChar c = true)
    (hs : ∀ c, c ∈ s → c ≠ '.' ∧ isSpaceChar c = false)
    (hf : f ≠ [] ∧ ∀ c, c ∈ f → isSpaceChar c = false)
    (he : ∀ c, c ∈ e → isSpaceChar c = false) :
    formatErrTypeMismatch lower
        (String.mk (pre ++ litCannot ++ r ++ litInto ++ s ++ ['.'] ++ f ++ litOfType ++ e))
      = String.mk ("cannot parse '".data ++ r ++ "' into <".data ++ f.map lower
          ++ ">, expected '".data
          ++ (if e = "map".data ∨ '.' ∈ e then "object".data else e) ++ "'.".data) := by
  have hm := matchHere_shape r s f e hr hs hf he
  have hfind := findSubmatch_first _ _ hm pre [] (by simpa using hfirst)
  have hnorm : pre ++ litCannot ++ r ++ litInto ++ s ++ ['.'] ++ f ++ litOfType ++ e
      = pre ++ (litCannot ++ (r ++ (litInto ++ (s ++ '.' :: (f ++ (litOfType ++ e)))))) := by
    simp [List.append_assoc]
  unfold formatErrTypeMismatch
  simp only [hnorm, hfind, List.take_append_drop, mismatchText]
  by_cases h1 : e = "map".data
  · simp [h1]
  · by_cases h2 : '.' ∈ e
    · simp [h1, h2]
    · simp [h1, h2]

theorem formatErrTypeMismatch_shape_witness :
    (∀ x y, "json: ".data ++ litCannot = x ++ litCannot ++ y → y = []) ∧
    formatErrTypeMismatch Char.toLower
        (String.mk ("json: ".data ++ litCannot ++ "string".data ++ litInto ++ "User".data
          ++ ['.'] ++ "Address".data ++ litOfType ++ "main.Address".data))
      = String.mk ("cannot parse '".data ++ "string".data ++ "' into <".data
          ++ "Address".data.map Char.toLower ++ ">, expected '".data
          ++ (if "main.Address".data = "map".data ∨ '.' ∈ "main.Address".data
              then "object".data else "main.Address".data) ++ "'.".data) := by
  have hfirst : ∀ x y, "json: ".data ++ litCannot = x ++ litCannot ++ y → y = [] := by
    intro x y h
    have hl := congrArg List.length h
    have h6 : ("json: ".data).length = 6 := rfl
    simp only [List.length_append, h6] at hl
    have hx : x.length ≤ 6 := by omega
    by_cases hx6 : x.length = 6
    · apply List.eq_nil_of_length_eq_zero
      omega
    · exfalso
      have hx5 : x.length ≤ 5 := by omega
      have h1 := congrArg (fun l => l.drop x.length) h
      simp only [List.append_assoc, List.drop_left] at h1
      have h2 := congrArg List.head? h1
      have hh : (litCannot ++ y).head? = some 'c' := rfl
      rw [hh] at h2
      match x, hx5 with
      | [], _ => simp at h2
      | [_], _ => simp at h2
      | [_, _], _ => simp at h2
      | [_, _, _], _ => simp at h2
      | [_, _, _, _], _ => simp at h2
      | [_, _, _, _, _], _ => simp at h2
      | _ :: _ :: _ :: _ :: _ :: _ :: _, h => simp at h
  exact ⟨hfirst, formatErrTypeMismatch_shape Char.toLower "json: ".data "string".data
    "User".data "Address".data "main.Address".data hfirst
    ⟨by decide, by decide⟩ (by decide) ⟨by decide, by decide⟩ (by decide)⟩

/-- C17: a raw message that the pattern does not match, in particular every
message that does not contain `cannot unmarshal ` followed later by
` into Go struct field ` and ` of type `, is returned unchanged. -/
theorem formatErrTypeMismatch_fallback (lower : Char → Char) (input : String)
    (h : findSubmatch input.data = none ∨
      ¬ ∃ a b c d, input.data = a ++ litCannot ++ b ++ litInto ++ c ++ litOfType ++ d) :
    formatErrTypeMismatch lower input = input := by
  have hnone : findSubmatch input.data = none := by
    rcases h with h | h
    · exact h
    · cases hf : findSubmatch input.data with
      | none => rfl
      | some res =>
        obtain ⟨r, f, e⟩ := res
        exact absurd (findSubmatch_eq_some_shape _ _ _ _ hf) h
  unfold formatErrTypeMismatch
  rw [hnone]

theorem formatErrTypeMismatch_fallback_witness :
    findSubmatch "unexpected end of JSON input".data = none ∧
    formatErrTypeMismatch Char.toLower "unexpected end of JSON input"
      = "unexpected end of JSON input" :=
  ⟨by decide, formatErrTypeMismatch_fallback Char.toLower "unexpected end of JSON input"
    (Or.inl (by decide))⟩

end GoParse
